import Mathlib

/-!
Verification of the Dredd knowledge-extraction service against its
specification.  Each Go function relevant to the checked claims is embedded
as a Lean definition (floating-point scores become exact rationals, machine
maps become association lists or explicit domains, side effects become
explicit effect lists), and the claims are settled as theorems about those
definitions.
-/

set_option maxRecDepth 4000
set_option linter.unusedSectionVars false

/-! ## Trust scorer (internal/trust/scorer.go)

Pure numeric update rules.  Go float64 arithmetic is embedded over ℚ; the
constants involved (0.01, 0.03, 0.05, 0.7, 0.5, 2.0) and the claim values
are exact decimals, so the rational model matches the Go computation up to
float rounding, which the scorer tests themselves tolerate.
-/

namespace DreddTrust

/-- Embeds trust.SignalWeight: the trust score increment for a severity. -/
def SignalWeight (severity : String) : ℚ :=
  if severity = "routine" then 0.01
  else if severity = "significant" then 0.03
  else if severity = "critical" then 0.05
  else 0.01

/-- Embeds trust.SentimentModifier: scaling factor for a sentiment state. -/
def SentimentModifier (sentiment : String) : ℚ :=
  if sentiment = "flow" then 1.0
  else if sentiment = "stressed" then 0.7
  else if sentiment = "frustrated" then 0.5
  else 1.0

/-- Embeds trust.clamp: clamp a score into [0, 1]. -/
def clamp (score : ℚ) : ℚ :=
  if score < 0.0 then 0.0
  else if score > 1.0 then 1.0
  else score

/-- Embeds trust.UpdateScoreWithSentiment: new trust score after a signal,
with the weight scaled by the sentiment modifier; wrong decisions degrade
trust twice as fast. -/
def UpdateScoreWithSentiment (currentScore : ℚ) (severity : String)
    (correct : Bool) (sentiment : String) : ℚ :=
  let weight := SignalWeight severity * SentimentModifier sentiment
  if correct then clamp (currentScore + weight)
  else clamp (currentScore - weight * 2.0)

/-- Embeds trust.UpdateScore, which forwards with an empty sentiment. -/
def UpdateScore (currentScore : ℚ) (severity : String) (correct : Bool) : ℚ :=
  UpdateScoreWithSentiment currentScore severity correct ""

theorem clamp_of_mem_Icc {x : ℚ} (h0 : 0 ≤ x) (h1 : x ≤ 1) : clamp x = x := by
  unfold clamp
  rw [if_neg (by linarith), if_neg (by linarith)]

theorem signalWeight_pos (severity : String) : 0 < SignalWeight severity := by
  unfold SignalWeight
  split_ifs <;> norm_num

theorem sentimentModifier_pos (sentiment : String) :
    0 < SentimentModifier sentiment := by
  unfold SentimentModifier
  split_ifs <;> norm_num

theorem signalWeight_routine : SignalWeight "routine" = 0.01 := rfl

theorem signalWeight_significant : SignalWeight "significant" = 0.03 := rfl

theorem sentimentModifier_flow : SentimentModifier "flow" = 1.0 := rfl

theorem sentimentModifier_stressed : SentimentModifier "stressed" = 0.7 := rfl

end DreddTrust

/-- Claim C3: the trust score update computes
new = clamp(old + SignalWeight(severity) * SentimentModifier(sentiment)) when
correct and new = clamp(old - 2 * SignalWeight * SentimentModifier) when
wrong; concretely, from 0.5 with severity "routine" and sentiment "flow" a
correct signal yields 0.51 and a wrong one 0.48, and from 0.5 with severity
"significant" and sentiment "stressed" a correct signal yields 0.521. -/
theorem C3_trust_update_formula_and_values :
    (∀ (s : ℚ) (sv se : String),
        DreddTrust.UpdateScoreWithSentiment s sv true se
          = DreddTrust.clamp
              (s + DreddTrust.SignalWeight sv * DreddTrust.SentimentModifier se))
    ∧ (∀ (s : ℚ) (sv se : String),
        DreddTrust.UpdateScoreWithSentiment s sv false se
          = DreddTrust.clamp
              (s - 2 * (DreddTrust.SignalWeight sv * DreddTrust.SentimentModifier se)))
    ∧ DreddTrust.UpdateScoreWithSentiment 0.5 "routine" true "flow" = 0.51
    ∧ DreddTrust.UpdateScoreWithSentiment 0.5 "routine" false "flow" = 0.48
    ∧ DreddTrust.UpdateScoreWithSentiment 0.5 "significant" true "stressed" = 0.521 := by
  have hval : ∀ (s : ℚ) (sv se : String),
      DreddTrust.UpdateScoreWithSentiment s sv false se
        = DreddTrust.clamp
            (s - 2 * (DreddTrust.SignalWeight sv * DreddTrust.SentimentModifier se)) := by
    intro s sv se
    show DreddTrust.clamp _ = DreddTrust.clamp _
    congr 1
    ring
  refine ⟨fun s sv se => rfl, hval, ?_, ?_, ?_⟩ <;>
    norm_num [DreddTrust.UpdateScoreWithSentiment, DreddTrust.signalWeight_routine,
      DreddTrust.signalWeight_significant, DreddTrust.sentimentModifier_flow,
      DreddTrust.sentimentModifier_stressed, DreddTrust.clamp]

/-- Claim C4 fails on the code: at the starting score 1 (which lies in
[0, 1]) with severity "routine" and sentiment "flow", the gain of a correct
signal is clamped to 0 while the loss of a wrong signal is 0.02, so the
claimed identity 2 * gain = loss does not hold there. -/
theorem C4_counterexample_clamp_at_one :
    ¬ (2 * (DreddTrust.UpdateScoreWithSentiment 1 "routine" true "flow" - 1)
        = 1 - DreddTrust.UpdateScoreWithSentiment 1 "routine" false "flow") := by
  norm_num [DreddTrust.UpdateScoreWithSentiment, DreddTrust.signalWeight_routine,
    DreddTrust.sentimentModifier_flow, DreddTrust.clamp]

/-- Claim C4 (amended): whenever neither clamp fires, i.e. the weighted gain
still fits below 1 and twice the weighted loss fits above 0, the loss from
one wrong signal is exactly twice the gain from one correct signal. -/
theorem C4_loss_twice_gain_when_unclamped (s : ℚ) (sv se : String)
    (hup : s + DreddTrust.SignalWeight sv * DreddTrust.SentimentModifier se ≤ 1)
    (hdown : 0 ≤ s - 2 * (DreddTrust.SignalWeight sv * DreddTrust.SentimentModifier se)) :
    2 * (DreddTrust.UpdateScoreWithSentiment s sv true se - s)
      = s - DreddTrust.UpdateScoreWithSentiment s sv false se := by
  have hw : 0 < DreddTrust.SignalWeight sv * DreddTrust.SentimentModifier se :=
    mul_pos (DreddTrust.signalWeight_pos sv) (DreddTrust.sentimentModifier_pos se)
  have ht : DreddTrust.UpdateScoreWithSentiment s sv true se
      = DreddTrust.clamp
          (s + DreddTrust.SignalWeight sv * DreddTrust.SentimentModifier se) := rfl
  have hf : DreddTrust.UpdateScoreWithSentiment s sv false se
      = DreddTrust.clamp
          (s - DreddTrust.SignalWeight sv * DreddTrust.SentimentModifier se * 2.0) := rfl
  rw [ht, hf, DreddTrust.clamp_of_mem_Icc (by linarith) (by linarith),
    DreddTrust.clamp_of_mem_Icc (by linarith) (by linarith)]
  ring

/-- Witness for C4: at score 0.5, severity "routine", sentiment "flow" the
hypotheses hold and the identity gives gain 0.01 against loss 0.02. -/
theorem C4_loss_twice_gain_when_unclamped_witness :
    (0.5 + DreddTrust.SignalWeight "routine" * DreddTrust.SentimentModifier "flow" ≤ 1)
    ∧ (0 ≤ 0.5 - 2 * (DreddTrust.SignalWeight "routine" * DreddTrust.SentimentModifier "flow"))
    ∧ 2 * (DreddTrust.UpdateScoreWithSentiment 0.5 "routine" true "flow" - 0.5)
        = 0.5 - DreddTrust.UpdateScoreWithSentiment 0.5 "routine" false "flow" := by
  have h1 : (0.5 : ℚ) + DreddTrust.SignalWeight "routine" * DreddTrust.SentimentModifier "flow" ≤ 1 := by
    norm_num [DreddTrust.signalWeight_routine, DreddTrust.sentimentModifier_flow]
  have h2 : (0 : ℚ) ≤ 0.5 - 2 * (DreddTrust.SignalWeight "routine" * DreddTrust.SentimentModifier "flow") := by
    norm_num [DreddTrust.signalWeight_routine, DreddTrust.sentimentModifier_flow]
  exact ⟨h1, h2, C4_loss_twice_gain_when_unclamped 0.5 "routine" "flow" h1 h2⟩

/-! ## Conversation chunker (internal/backfill/chunker.go)

Messages carry a role, a text, and a timestamp.  Go time.Time is embedded
as an Int of nanoseconds where 0 encodes the zero time (IsZero), and
time.Duration thresholds keep their nanosecond values.
-/

namespace DreddBackfill

/-- Embeds backfill.ConversationMessage. -/
structure ConversationMessage where
  role : String
  text : String
  timestamp : Int
deriving DecidableEq, Repr

/-- Embeds backfill.Chunk (the fields the chunker sets). -/
structure Chunk where
  messages : List ConversationMessage
  sessionRef : String
  startTime : Int
  endTime : Int
deriving DecidableEq, Repr, Inhabited

/-- Embeds backfill.FileSource (SourceCC and SourceGateway). -/
inductive FileSource where
  | cc
  | gateway
deriving DecidableEq, Repr

/-- Embeds the maxChunkMessages constant (20). -/
def maxChunkMessages : Nat := 20

/-- Embeds ccTimeGap = 5 minutes, in nanoseconds. -/
def ccTimeGap : Int := 300000000000

/-- Embeds gatewayTimeGap = 10 minutes, in nanoseconds. -/
def gatewayTimeGap : Int := 600000000000

/-- Embeds backfill.buildChunk: copy the messages, label the chunk
sessionRef#chunk-idx, and record first and last timestamps when non-zero. -/
def buildChunk (msgs : List ConversationMessage) (sessionRef : String)
    (idx : Nat) : Chunk :=
  { messages := msgs
    sessionRef := sessionRef ++ "#chunk-" ++ toString idx
    startTime :=
      match msgs.head? with
      | some m => if m.timestamp ≠ 0 then m.timestamp else 0
      | none => 0
    endTime :=
      match msgs.getLast? with
      | some m => if m.timestamp ≠ 0 then m.timestamp else 0
      | none => 0 }

/-- The time-gap test of the chunker loop: split before msg when the current
chunk is non-empty, both the previous and the new timestamps are non-zero,
and the gap exceeds the threshold. -/
def gapSplit (timeGap : Int) (current : List ConversationMessage)
    (msg : ConversationMessage) : Bool :=
  match current.getLast? with
  | none => false
  | some prev =>
      msg.timestamp != 0 && prev.timestamp != 0
        && decide (msg.timestamp - prev.timestamp > timeGap)

/-- One iteration of the backfill.ChunkConversation loop body: flush on a
time gap, then flush on the count boundary, then append the message. -/
def chunkStep (timeGap : Int) (sessionRef : String)
    (acc : List Chunk × List ConversationMessage × Nat)
    (msg : ConversationMessage) : List Chunk × List ConversationMessage × Nat :=
  let (chunks, current, chunkIdx) := acc
  let (chunks, current, chunkIdx) :=
    if gapSplit timeGap current msg then
      (chunks ++ [buildChunk current sessionRef chunkIdx], [], chunkIdx + 1)
    else (chunks, current, chunkIdx)
  let (chunks, current, chunkIdx) :=
    if maxChunkMessages ≤ current.length then
      (chunks ++ [buildChunk current sessionRef chunkIdx], [], chunkIdx + 1)
    else (chunks, current, chunkIdx)
  (chunks, current ++ [msg], chunkIdx)

/-- The source-specific split threshold chosen by ChunkConversation. -/
def gapOf (source : FileSource) : Int :=
  if source = FileSource.gateway then gatewayTimeGap else ccTimeGap

/-- The final flush of the ChunkConversation loop: emit the remaining
current chunk when non-empty. -/
def chunkFinish (sessionRef : String)
    (st : List Chunk × List ConversationMessage × Nat) : List Chunk :=
  if st.2.1 = [] then st.1
  else st.1 ++ [buildChunk st.2.1 sessionRef st.2.2]

/-- Embeds backfill.ChunkConversation: split a conversation into chunks on
time gaps and message-count boundaries. -/
def ChunkConversation (msgs : List ConversationMessage) (sessionRef : String)
    (source : FileSource) : List Chunk :=
  if msgs = [] then []
  else chunkFinish sessionRef (msgs.foldl (chunkStep (gapOf source) sessionRef) ([], [], 0))

/-- Modelled from the spec words for comparison: a new chunk starts exactly
when the gap between consecutive timestamped messages exceeds the source
threshold or the current chunk already holds maxChunkMessages messages. -/
def chunkStepSpec (timeGap : Int) (sessionRef : String)
    (acc : List Chunk × List ConversationMessage × Nat)
    (msg : ConversationMessage) : List Chunk × List ConversationMessage × Nat :=
  let (chunks, current, chunkIdx) := acc
  if gapSplit timeGap current msg || decide (maxChunkMessages ≤ current.length) then
    (chunks ++ [buildChunk current sessionRef chunkIdx], [msg], chunkIdx + 1)
  else (chunks, current ++ [msg], chunkIdx)

/-- The spec-worded chunker: identical driver, split decision taken as one
disjunction. -/
def ChunkConversationSpec (msgs : List ConversationMessage) (sessionRef : String)
    (source : FileSource) : List Chunk :=
  if msgs = [] then []
  else chunkFinish sessionRef (msgs.foldl (chunkStepSpec (gapOf source) sessionRef) ([], [], 0))

theorem chunkStep_eq_spec (timeGap : Int) (sessionRef : String)
    (acc : List Chunk × List ConversationMessage × Nat)
    (msg : ConversationMessage) :
    chunkStep timeGap sessionRef acc msg = chunkStepSpec timeGap sessionRef acc msg := by
  obtain ⟨chunks, current, chunkIdx⟩ := acc
  simp only [chunkStep, chunkStepSpec]
  by_cases hg : gapSplit timeGap current msg
  · simp [hg, maxChunkMessages]
  · by_cases hc : maxChunkMessages ≤ current.length
    · simp [hg, hc]
    · simp [hg, hc]

end DreddBackfill

namespace DreddBackfill

/-- All messages held by a loop state: messages of emitted chunks followed by
the current chunk under construction. -/
def flatMessages (st : List Chunk × List ConversationMessage × Nat) :
    List ConversationMessage :=
  (st.1.map Chunk.messages).flatten ++ st.2.1

theorem flatMessages_chunkStep (timeGap : Int) (sessionRef : String)
    (acc : List Chunk × List ConversationMessage × Nat)
    (msg : ConversationMessage) :
    flatMessages (chunkStep timeGap sessionRef acc msg)
      = flatMessages acc ++ [msg] := by
  obtain ⟨chunks, current, chunkIdx⟩ := acc
  simp only [chunkStep]
  by_cases hg : gapSplit timeGap current msg
  · simp [hg, maxChunkMessages, flatMessages, buildChunk]
  · by_cases hc : maxChunkMessages ≤ current.length
    · simp [hg, hc, flatMessages, buildChunk]
    · simp [hg, hc, flatMessages, buildChunk]

theorem flatMessages_foldl (timeGap : Int) (sessionRef : String)
    (msgs : List ConversationMessage)
    (acc : List Chunk × List ConversationMessage × Nat) :
    flatMessages (msgs.foldl (chunkStep timeGap sessionRef) acc)
      = flatMessages acc ++ msgs := by
  induction msgs generalizing acc with
  | nil => simp
  | cons m rest ih =>
      simp only [List.foldl_cons]
      rw [ih, flatMessages_chunkStep]
      simp

/-- The loop invariant for the chunker: every emitted chunk respects the
size bound, the current chunk does too, the running index equals the number
of emitted chunks, and the emitted labels are sessionRef#chunk-i for
i = 0, 1, …. -/
def ChunkInv (sessionRef : String)
    (st : List Chunk × List ConversationMessage × Nat) : Prop :=
  (∀ c ∈ st.1, c.messages.length ≤ maxChunkMessages)
  ∧ st.2.1.length ≤ maxChunkMessages
  ∧ st.2.2 = st.1.length
  ∧ st.1.map Chunk.sessionRef
      = (List.range st.1.length).map (fun i => sessionRef ++ "#chunk-" ++ toString i)

theorem chunkInv_init (sessionRef : String) : ChunkInv sessionRef ([], [], 0) := by
  simp [ChunkInv]

theorem chunkInv_chunkStep (timeGap : Int) (sessionRef : String)
    (acc : List Chunk × List ConversationMessage × Nat)
    (msg : ConversationMessage) (h : ChunkInv sessionRef acc) :
    ChunkInv sessionRef (chunkStep timeGap sessionRef acc msg) := by
  obtain ⟨chunks, current, chunkIdx⟩ := acc
  obtain ⟨hall, hcur, hidx, hlab⟩ := h
  dsimp only at hall hcur hidx hlab
  have hflush : ChunkInv sessionRef
      (chunks ++ [buildChunk current sessionRef chunkIdx], [msg], chunkIdx + 1) := by
    refine ⟨?_, by simp [maxChunkMessages], by simp [hidx], ?_⟩
    · intro c hcmem
      rcases List.mem_append.mp hcmem with h1 | h2
      · exact hall c h1
      · rw [List.mem_singleton.mp h2]
        simpa [buildChunk] using hcur
    · subst hidx
      simp [List.range_succ, hlab, buildChunk]
  simp only [chunkStep]
  by_cases hg : gapSplit timeGap current msg
  · simpa [hg, maxChunkMessages] using hflush
  · by_cases hc : maxChunkMessages ≤ current.length
    · simpa [hg, hc] using hflush
    · simp only [hg, hc, if_false, Bool.false_eq_true, if_neg, ite_false]
      refine ⟨hall, ?_, hidx, hlab⟩
      simp only [List.length_append, List.length_singleton]
      omega

theorem chunkInv_foldl (timeGap : Int) (sessionRef : String)
    (msgs : List ConversationMessage)
    (acc : List Chunk × List ConversationMessage × Nat)
    (h : ChunkInv sessionRef acc) :
    ChunkInv sessionRef (msgs.foldl (chunkStep timeGap sessionRef) acc) := by
  induction msgs generalizing acc with
  | nil => exact h
  | cons m rest ih =>
      exact ih _ (chunkInv_chunkStep timeGap sessionRef acc m h)

end DreddBackfill

namespace DreddBackfill

theorem chunkConversation_bound_and_labels (msgs : List ConversationMessage)
    (sessionRef : String) (source : FileSource) :
    (∀ c ∈ ChunkConversation msgs sessionRef source,
        c.messages.length ≤ maxChunkMessages)
    ∧ (ChunkConversation msgs sessionRef source).map Chunk.sessionRef
        = (List.range (ChunkConversation msgs sessionRef source).length).map
            (fun i => sessionRef ++ "#chunk-" ++ toString i) := by
  by_cases hmsgs : msgs = []
  · subst hmsgs
    simp [ChunkConversation]
  · unfold ChunkConversation
    rw [if_neg hmsgs]
    rcases hfold : msgs.foldl (chunkStep (gapOf source) sessionRef) ([], [], 0)
      with ⟨chunks, current, chunkIdx⟩
    have hinv := chunkInv_foldl (gapOf source) sessionRef msgs ([], [], 0)
      (chunkInv_init sessionRef)
    rw [hfold] at hinv
    obtain ⟨hall, hcur, hidx, hlab⟩ := hinv
    dsimp only at hall hcur hidx hlab
    unfold chunkFinish
    dsimp only
    by_cases hc : current = []
    · rw [if_pos hc]
      exact ⟨hall, hlab⟩
    · rw [if_neg hc]
      constructor
      · intro c hcmem
        rcases List.mem_append.mp hcmem with h1 | h2
        · exact hall c h1
        · rw [List.mem_singleton.mp h2]
          simpa [buildChunk] using hcur
      · subst hidx
        simp [List.range_succ, hlab, buildChunk]

theorem chunkConversation_eq_spec (msgs : List ConversationMessage)
    (sessionRef : String) (source : FileSource) :
    ChunkConversation msgs sessionRef source
      = ChunkConversationSpec msgs sessionRef source := by
  have hstep : chunkStep (gapOf source) sessionRef = chunkStepSpec (gapOf source) sessionRef :=
    funext fun acc => funext fun msg =>
      chunkStep_eq_spec (gapOf source) sessionRef acc msg
  unfold ChunkConversation ChunkConversationSpec
  rw [hstep]

/-- Concrete conversation used as a witness: messages at 1s, 2s, then a jump
past the 5-minute CC threshold. -/
def exMsgs : List ConversationMessage :=
  [⟨"user", "a", 1000000000⟩, ⟨"assistant", "b", 2000000000⟩,
   ⟨"user", "c", 601000000000⟩, ⟨"assistant", "d", 602000000000⟩]

end DreddBackfill

/-- Claim C5: the chunker produces chunks of at most 20 messages, starts a
new chunk exactly when the gap between consecutive timestamped messages
exceeds the source threshold (5 min for CC, 10 min for Gateway, encoded in
the same constants the spec-worded variant uses) or the current chunk
already holds 20 messages, never splits on a zero timestamp, and labels
chunks sessionRef#chunk-N with N contiguous from 0.  The split behaviour is
expressed as equality with ChunkConversationSpec, whose single split test is
the spec-worded disjunction over timestamped gaps and chunk fullness. -/
theorem C5_chunker_bounds_splits_labels (msgs : List DreddBackfill.ConversationMessage)
    (sessionRef : String) (source : DreddBackfill.FileSource) :
    (∀ c ∈ DreddBackfill.ChunkConversation msgs sessionRef source,
        c.messages.length ≤ DreddBackfill.maxChunkMessages)
    ∧ DreddBackfill.ChunkConversation msgs sessionRef source
        = DreddBackfill.ChunkConversationSpec msgs sessionRef source
    ∧ (DreddBackfill.ChunkConversation msgs sessionRef source).map
          DreddBackfill.Chunk.sessionRef
        = (List.range (DreddBackfill.ChunkConversation msgs sessionRef source).length).map
            (fun i => sessionRef ++ "#chunk-" ++ toString i) :=
  ⟨(DreddBackfill.chunkConversation_bound_and_labels msgs sessionRef source).1,
   DreddBackfill.chunkConversation_eq_spec msgs sessionRef source,
   (DreddBackfill.chunkConversation_bound_and_labels msgs sessionRef source).2⟩

/-- Witness for C5: on a concrete CC conversation with a gap past the
5-minute threshold, the first produced chunk is a member of the output and
respects the 20-message bound. -/
theorem C5_chunker_bounds_splits_labels_witness :
    ((DreddBackfill.ChunkConversation DreddBackfill.exMsgs "s" DreddBackfill.FileSource.cc).headI
        ∈ DreddBackfill.ChunkConversation DreddBackfill.exMsgs "s" DreddBackfill.FileSource.cc)
    ∧ (DreddBackfill.ChunkConversation DreddBackfill.exMsgs "s"
          DreddBackfill.FileSource.cc).headI.messages.length
        ≤ DreddBackfill.maxChunkMessages :=
  ⟨by decide,
   (C5_chunker_bounds_splits_labels DreddBackfill.exMsgs "s" DreddBackfill.FileSource.cc).1
     _ (by decide)⟩

/-- Claim C10: concatenating the message lists of the chunks returned by
ChunkConversation, in chunk order, yields exactly the input message list:
chunking drops, duplicates and reorders nothing. -/
theorem C10_chunker_preserves_messages (msgs : List DreddBackfill.ConversationMessage)
    (sessionRef : String) (source : DreddBackfill.FileSource) :
    ((DreddBackfill.ChunkConversation msgs sessionRef source).map
        DreddBackfill.Chunk.messages).flatten = msgs := by
  by_cases hmsgs : msgs = []
  · subst hmsgs
    simp [DreddBackfill.ChunkConversation]
  · unfold DreddBackfill.ChunkConversation
    rw [if_neg hmsgs]
    rcases hfold : msgs.foldl
        (DreddBackfill.chunkStep (DreddBackfill.gapOf source) sessionRef) ([], [], 0)
      with ⟨chunks, current, chunkIdx⟩
    have hkey := DreddBackfill.flatMessages_foldl
      (DreddBackfill.gapOf source) sessionRef msgs ([], [], 0)
    rw [hfold] at hkey
    simp only [DreddBackfill.flatMessages, List.map_nil, List.flatten_nil,
      List.nil_append] at hkey
    unfold DreddBackfill.chunkFinish
    dsimp only
    by_cases hc : current = []
    · subst hc
      simpa using hkey
    · rw [if_neg hc]
      simpa [DreddBackfill.buildChunk] using hkey

/-! ## Cross-source fingerprint dedup (internal/backfill/dedup.go)

Timestamps are Int nanoseconds as in the chunker; the 80% overlap test over
float64 division is embedded over ℚ, exact for the integer counts involved.
-/

namespace DreddBackfill

/-- Embeds the dedupWindow constant (1 second, in nanoseconds). -/
def dedupWindow : Int := 1000000000

/-- Embeds the overlapThreshold constant (0.8). -/
def overlapThreshold : ℚ := 0.8

/-- Embeds backfill.fileFingerprint. -/
structure fileFingerprint where
  path : String
  source : FileSource
  timestamps : List Int
  previews : List String
deriving DecidableEq, Repr

/-- The inner loop of isOverlapping: does the timestamp bt match some
timestamp of fingerprint a within the dedup window? -/
def tsMatches (a : fileFingerprint) (bt : Int) : Bool :=
  a.timestamps.any fun ts =>
    let diff := bt - ts
    decide ((if diff < 0 then -diff else diff) ≤ dedupWindow)

/-- Embeds backfill.isOverlapping: at least the threshold fraction of the
timestamps of b appear among the timestamps of a within the window. -/
def isOverlapping (a b : fileFingerprint) : Bool :=
  if b.timestamps = [] then false
  else
    let matchCount := b.timestamps.countP (tsMatches a)
    decide (((matchCount : ℚ) / (b.timestamps.length : ℚ)) ≥ overlapThreshold)

/-- Embeds backfill.FindDuplicates: gateway file paths that overlap with
some CC file (the returned path list plays the role of the Go set of map
keys). -/
def FindDuplicates (ccFPs gwFPs : List fileFingerprint) : List String :=
  gwFPs.foldl
    (fun duplicates gw =>
      if gw.timestamps = [] then duplicates
      else if ccFPs.any fun cc => isOverlapping cc gw then duplicates ++ [gw.path]
      else duplicates)
    []

theorem findDuplicates_foldl_mem (ccFPs : List fileFingerprint) (p : String)
    (gwFPs : List fileFingerprint) (acc : List String) :
    p ∈ gwFPs.foldl
        (fun duplicates gw =>
          if gw.timestamps = [] then duplicates
          else if ccFPs.any fun cc => isOverlapping cc gw then duplicates ++ [gw.path]
          else duplicates)
        acc
      ↔ p ∈ acc
        ∨ ∃ gw ∈ gwFPs, gw.path = p ∧ gw.timestamps ≠ []
            ∧ ∃ cc ∈ ccFPs, isOverlapping cc gw = true := by
  induction gwFPs generalizing acc with
  | nil => simp
  | cons gw rest ih =>
      simp only [List.foldl_cons]
      by_cases hts : gw.timestamps = []
      · rw [if_pos hts, ih]
        constructor
        · rintro (h | h)
          · exact Or.inl h
          · exact Or.inr (by simpa using Or.inr h)
        · rintro (h | h)
          · exact Or.inl h
          · rcases h with ⟨g, hg, hp, hne, hcc⟩
            rcases List.mem_cons.mp hg with rfl | hg2
            · exact absurd hts hne
            · exact Or.inr ⟨g, hg2, hp, hne, hcc⟩
      · rw [if_neg hts]
        by_cases hcc : (ccFPs.any fun cc => isOverlapping cc gw) = true
        · rw [if_pos hcc, ih]
          rcases List.any_eq_true.mp hcc with ⟨cc, hccmem, hover⟩
          constructor
          · rintro (h | h)
            · rcases List.mem_append.mp h with h1 | h2
              · exact Or.inl h1
              · refine Or.inr ⟨gw, List.mem_cons_self gw rest, ?_, hts, cc, hccmem, hover⟩
                exact (List.mem_singleton.mp h2).symm
            · rcases h with ⟨g, hg, hp, hne, hcc2⟩
              exact Or.inr ⟨g, List.mem_cons_of_mem gw hg, hp, hne, hcc2⟩
          · rintro (h | h)
            · exact Or.inl (List.mem_append.mpr (Or.inl h))
            · rcases h with ⟨g, hg, hp, hne, hcc2⟩
              rcases List.mem_cons.mp hg with rfl | hg2
              · exact Or.inl (List.mem_append.mpr (Or.inr (by simp [hp])))
              · exact Or.inr ⟨g, hg2, hp, hne, hcc2⟩
        · rw [if_neg hcc, ih]
          constructor
          · rintro (h | h)
            · exact Or.inl h
            · rcases h with ⟨g, hg, hp, hne, hcc2⟩
              exact Or.inr ⟨g, List.mem_cons_of_mem gw hg, hp, hne, hcc2⟩
          · rintro (h | h)
            · exact Or.inl h
            · rcases h with ⟨g, hg, hp, hne, hcc2⟩
              rcases List.mem_cons.mp hg with rfl | hg2
              · rcases hcc2 with ⟨cc, hccmem, hover⟩
                exact absurd (List.any_eq_true.mpr ⟨cc, hccmem, hover⟩) hcc
              · exact Or.inr ⟨g, hg2, hp, hne, hcc2⟩

theorem isOverlapping_iff (a b : fileFingerprint) (hb : b.timestamps ≠ []) :
    isOverlapping a b = true
      ↔ ((b.timestamps.countP (tsMatches a) : ℚ) / (b.timestamps.length : ℚ))
          ≥ overlapThreshold := by
  unfold isOverlapping
  rw [if_neg hb]
  exact decide_eq_true_iff

end DreddBackfill

/-- Claim C6: a gateway file path is marked duplicate exactly when some
gateway fingerprint with that path has a non-empty timestamp list whose
matched fraction against some single CC fingerprint — timestamps matching
within the ±1 s window — is at least 0.8; in particular a gateway
fingerprint without timestamps is never marked. -/
theorem C6_fingerprint_dedup_characterization
    (ccFPs gwFPs : List DreddBackfill.fileFingerprint) (p : String) :
    (p ∈ DreddBackfill.FindDuplicates ccFPs gwFPs
      ↔ ∃ gw ∈ gwFPs, gw.path = p ∧ gw.timestamps ≠ []
          ∧ ∃ cc ∈ ccFPs,
              ((gw.timestamps.countP (DreddBackfill.tsMatches cc) : ℚ)
                  / (gw.timestamps.length : ℚ))
                ≥ DreddBackfill.overlapThreshold)
    ∧ ((∀ gw ∈ gwFPs, gw.path = p → gw.timestamps = [])
        → p ∉ DreddBackfill.FindDuplicates ccFPs gwFPs) := by
  have hmain : p ∈ DreddBackfill.FindDuplicates ccFPs gwFPs
      ↔ ∃ gw ∈ gwFPs, gw.path = p ∧ gw.timestamps ≠ []
          ∧ ∃ cc ∈ ccFPs,
              ((gw.timestamps.countP (DreddBackfill.tsMatches cc) : ℚ)
                  / (gw.timestamps.length : ℚ))
                ≥ DreddBackfill.overlapThreshold := by
    rw [DreddBackfill.FindDuplicates,
      DreddBackfill.findDuplicates_foldl_mem ccFPs p gwFPs []]
    simp only [List.not_mem_nil, false_or]
    constructor
    · rintro ⟨gw, hgw, hp, hne, cc, hcc, hover⟩
      exact ⟨gw, hgw, hp, hne, cc, hcc,
        (DreddBackfill.isOverlapping_iff cc gw hne).mp hover⟩
    · rintro ⟨gw, hgw, hp, hne, cc, hcc, hover⟩
      exact ⟨gw, hgw, hp, hne, cc, hcc,
        (DreddBackfill.isOverlapping_iff cc gw hne).mpr hover⟩
  refine ⟨hmain, fun hempty hmem => ?_⟩
  rcases hmain.mp hmem with ⟨gw, hgw, hp, hne, _⟩
  exact hne (hempty gw hgw hp)

/-- A timestamp-free gateway fingerprint used as the C6 witness input. -/
def gwEmptyFP : DreddBackfill.fileFingerprint :=
  ⟨"g", DreddBackfill.FileSource.gateway, [], []⟩

/-- Witness for C6: with one timestamp-free gateway fingerprint, its path is
not marked duplicate. -/
theorem C6_fingerprint_dedup_characterization_witness :
    (∀ gw ∈ [gwEmptyFP], gw.path = "g" → gw.timestamps = [])
    ∧ "g" ∉ DreddBackfill.FindDuplicates [] [gwEmptyFP] := by
  have h : ∀ gw ∈ [gwEmptyFP], gw.path = "g" → gw.timestamps = [] := by
    intro gw hgw hp
    rw [List.mem_singleton.mp hgw]
    rfl
  exact ⟨h, (C6_fingerprint_dedup_characterization [] [gwEmptyFP] "g").2 h⟩

/-! ## Backfill state persistence (internal/backfill/state.go)

BackfillState.Save is embedded as the trace of file-system operations it
performs, together with a small-step semantics in which a plain file write
is not atomic (the file passes through a truncated state) while a rename is
atomic.  This makes the write-then-rename claim about Save expressible.
-/

namespace DreddBackfill

/-- Embeds backfill.BackfillState (timestamps as Int nanoseconds). -/
structure BackfillState where
  startedAt : Int
  lastProcessedAt : Int
  filesProcessed : List String
  filesRemaining : Nat
  chunksProcessed : Nat
  decisionsFound : Nat
  patternsFound : Nat
  errors : List String
  path : String
deriving DecidableEq, Repr

/-- A file-system operation issued by the state code. -/
inductive FsOp where
  | mkdirAll (dir : String)
  | writeFile (path : String) (data : String)
  | rename (fromPath toPath : String)
deriving DecidableEq, Repr

/-- Is the operation a rename? -/
def FsOp.isRename : FsOp → Bool
  | .rename _ _ => true
  | _ => false

/-- The directory part of a path: everything before the last slash
(approximating filepath.Dir far enough for these claims). -/
def dirOfPath (p : String) : String :=
  let rev := p.toList.reverse
  let tail := rev.dropWhile fun c => c ≠ '/'
  match tail with
  | [] => "."
  | _ :: rest => String.mk rest.reverse

/-- Embeds the file-system side of BackfillState.Save: MkdirAll on the
parent directory of the state path, then one WriteFile of the serialized
state (passed in as data) directly to the state path. -/
def saveOps (statePath : String) (data : String) : List FsOp :=
  [FsOp.mkdirAll (dirOfPath statePath), FsOp.writeFile statePath data]

/-- Assoc-list file system: content of a path (empty for a missing file,
which suffices here). -/
def lookupFile (files : List (String × String)) (p : String) : String :=
  ((files.find? fun e => e.1 = p).map Prod.snd).getD ""

/-- Set the content of a path. -/
def setFile (files : List (String × String)) (p v : String) :
    List (String × String) :=
  (p, v) :: files.filter fun e => e.1 ≠ p

/-- The intermediate file-system states observable while one operation
runs: a write first truncates the target and then fills it (not atomic); a
rename moves content in one step (atomic); mkdir leaves files unchanged. -/
def opSmallSteps (op : FsOp) (files : List (String × String)) :
    List (List (String × String)) :=
  match op with
  | .mkdirAll _ => [files]
  | .writeFile p d => [setFile files p "", setFile files p d]
  | .rename src dst =>
      [setFile (files.filter fun e => e.1 ≠ src) dst (lookupFile files src)]

/-- All file-system states passed through while running an operation
list. -/
def runStates : List FsOp → List (String × String) → List (List (String × String))
  | [], _ => []
  | op :: rest, files =>
      let steps := opSmallSteps op files
      steps ++ runStates rest (steps.getLastD files)

/-- The successive contents of the watched path while the operations run,
starting from the initial content. -/
def observableContents (ops : List FsOp) (files : List (String × String))
    (watch : String) : List String :=
  lookupFile files watch :: (runStates ops files).map fun fs => lookupFile fs watch

theorem lookupFile_setFile_self (files : List (String × String)) (p v : String) :
    lookupFile (setFile files p v) p = v := by
  simp [lookupFile, setFile, List.find?_cons]

theorem observableContents_saveOps (path data old : String) :
    observableContents (saveOps path data) [(path, old)] path
      = [old, old, "", data] := by
  simp only [saveOps, observableContents, runStates, opSmallSteps,
    List.getLastD, List.map, List.append_nil, List.cons_append, List.nil_append]
  simp [lookupFile, setFile, List.find?_cons]

end DreddBackfill

/-- Claim C9 fails on the code: Save issues no rename at all — its trace is
exactly MkdirAll followed by one direct WriteFile of the new data to the
state path — and during that write the state file passes through the empty
truncated content, which is neither the complete old state "olddata" nor
the complete new state "newdata". -/
theorem C9_counterexample_direct_write :
    (DreddBackfill.saveOps "w/state.json" "newdata").filter DreddBackfill.FsOp.isRename = []
    ∧ DreddBackfill.saveOps "w/state.json" "newdata"
        = [DreddBackfill.FsOp.mkdirAll "w",
           DreddBackfill.FsOp.writeFile "w/state.json" "newdata"]
    ∧ "" ∈ DreddBackfill.observableContents
        (DreddBackfill.saveOps "w/state.json" "newdata")
        [("w/state.json", "olddata")] "w/state.json"
    ∧ ("" : String) ≠ "olddata" ∧ ("" : String) ≠ "newdata" := by
  refine ⟨rfl, rfl, ?_, by decide, by decide⟩
  rw [DreddBackfill.observableContents_saveOps]
  decide

/-- Claim C9 (amended): Save persists the state by creating the parent
directory and then writing the serialized JSON directly to the state path
in a single WriteFile call; no temporary file and no rename are involved,
so mid-write the state file is observable in a truncated state that is
neither the old nor (for non-empty data) the new content. -/
theorem C9_save_writes_directly (path data old : String) :
    DreddBackfill.saveOps path data
        = [DreddBackfill.FsOp.mkdirAll (DreddBackfill.dirOfPath path),
           DreddBackfill.FsOp.writeFile path data]
    ∧ (DreddBackfill.saveOps path data).filter DreddBackfill.FsOp.isRename = []
    ∧ DreddBackfill.observableContents (DreddBackfill.saveOps path data)
        [(path, old)] path = [old, old, "", data] :=
  ⟨rfl, rfl, DreddBackfill.observableContents_saveOps path data old⟩

/-! ## Dedup survivor ranker (internal/dedup/ranker.go)

The DB fetch WHERE id = ANY(ids) is embedded as filtering a table, and the
best-record loop as a fold.  Confidence values are ℚ and created_at an Int
timestamp, with Go Time.After as strict greater-than.
-/

namespace DreddDedup

/-- Embeds dedup.reviewStatusPriority. -/
def reviewStatusPriority (status : String) : Nat :=
  if status = "confirmed" then 3
  else if status = "pending" then 2
  else if status = "rejected" then 1
  else 0

/-- Embeds dedup.severityPriority. -/
def severityPriority (severity : String) : Nat :=
  if severity = "critical" then 4
  else if severity = "high" then 3
  else if severity = "medium" then 2
  else if severity = "low" then 1
  else 0

/-- Embeds dedup.ReasoningPatternRecord. -/
structure ReasoningPatternRecord where
  id : String
  reviewStatus : String
  dreddConfidence : ℚ
  createdAt : Int
deriving DecidableEq, Repr

/-- Embeds dedup.DecisionRecord. -/
structure DecisionRecord where
  id : String
  reviewStatus : String
  severity : String
  createdAt : Int
deriving DecidableEq, Repr

/-- Embeds dedup.isReasoningPatternBetter. -/
def isReasoningPatternBetter (a b : ReasoningPatternRecord) : Bool :=
  if reviewStatusPriority a.reviewStatus ≠ reviewStatusPriority b.reviewStatus then
    decide (reviewStatusPriority a.reviewStatus > reviewStatusPriority b.reviewStatus)
  else if a.dreddConfidence ≠ b.dreddConfidence then
    decide (a.dreddConfidence > b.dreddConfidence)
  else decide (a.createdAt > b.createdAt)

/-- Embeds dedup.isDecisionBetter. -/
def isDecisionBetter (a b : DecisionRecord) : Bool :=
  if reviewStatusPriority a.reviewStatus ≠ reviewStatusPriority b.reviewStatus then
    decide (reviewStatusPriority a.reviewStatus > reviewStatusPriority b.reviewStatus)
  else if severityPriority a.severity ≠ severityPriority b.severity then
    decide (severityPriority a.severity > severityPriority b.severity)
  else decide (a.createdAt > b.createdAt)

/-- The best-record selection loop shared by both rankers. -/
def pickBest {α : Type} (better : α → α → Bool) (r0 : α) (rest : List α) : α :=
  rest.foldl (fun best r => if better r best then r else best) r0

/-- Embeds dedup.Ranker.RankReasoningPatterns over a table standing for the
reasoning_patterns relation. -/
def RankReasoningPatterns (ids : List String)
    (table : List ReasoningPatternRecord) : Option String :=
  match ids with
  | [] => none
  | [i] => some i
  | _ =>
      match table.filter (fun r => ids.contains r.id) with
      | [] => none
      | r0 :: rest => some (pickBest isReasoningPatternBetter r0 rest).id

/-- Embeds dedup.Ranker.RankDecisions over a table standing for the
decisions relation. -/
def RankDecisions (ids : List String)
    (table : List DecisionRecord) : Option String :=
  match ids with
  | [] => none
  | [i] => some i
  | _ =>
      match table.filter (fun r => ids.contains r.id) with
      | [] => none
      | r0 :: rest => some (pickBest isDecisionBetter r0 rest).id

/-- The ranking key of a pattern record, ordered lexicographically. -/
def patKey (r : ReasoningPatternRecord) : Lex (ℕ × Lex (ℚ × ℤ)) :=
  toLex (reviewStatusPriority r.reviewStatus, toLex (r.dreddConfidence, r.createdAt))

/-- The ranking key of a decision record, ordered lexicographically. -/
def decKey (r : DecisionRecord) : Lex (ℕ × Lex (ℕ × ℤ)) :=
  toLex (reviewStatusPriority r.reviewStatus, toLex (severityPriority r.severity, r.createdAt))

theorem isReasoningPatternBetter_iff (a b : ReasoningPatternRecord) :
    isReasoningPatternBetter a b = true ↔ patKey b < patKey a := by
  unfold isReasoningPatternBetter patKey
  rw [Prod.Lex.lt_iff]
  rcases eq_or_ne (reviewStatusPriority a.reviewStatus)
      (reviewStatusPriority b.reviewStatus) with h1 | h1
  · rw [if_neg (by simp [h1])]
    rcases eq_or_ne a.dreddConfidence b.dreddConfidence with h2 | h2
    · rw [if_neg (by simp [h2])]
      simp [h1, h2, Prod.Lex.lt_iff]
    · rw [if_pos h2, decide_eq_true_iff]
      constructor
      · intro h
        exact Or.inr ⟨h1.symm, (Prod.Lex.lt_iff _ _).mpr (Or.inl h)⟩
      · rintro (h | ⟨_, hlt⟩)
        · exact absurd h1.symm (ne_of_lt h)
        · rcases (Prod.Lex.lt_iff _ _).mp hlt with h3 | ⟨h3, _⟩
          · exact h3
          · exact absurd h3.symm h2
  · rw [if_pos h1]
    simp only [decide_eq_true_iff, GT.gt]
    constructor
    · intro h
      exact Or.inl h
    · rintro (h | ⟨h, _⟩)
      · exact h
      · exact absurd h h1.symm

theorem isDecisionBetter_iff (a b : DecisionRecord) :
    isDecisionBetter a b = true ↔ decKey b < decKey a := by
  unfold isDecisionBetter decKey
  rw [Prod.Lex.lt_iff]
  rcases eq_or_ne (reviewStatusPriority a.reviewStatus)
      (reviewStatusPriority b.reviewStatus) with h1 | h1
  · rw [if_neg (by simp [h1])]
    rcases eq_or_ne (severityPriority a.severity) (severityPriority b.severity) with h2 | h2
    · rw [if_neg (by simp [h2])]
      simp [h1, h2, Prod.Lex.lt_iff]
    · rw [if_pos h2, decide_eq_true_iff]
      constructor
      · intro h
        exact Or.inr ⟨h1.symm, (Prod.Lex.lt_iff _ _).mpr (Or.inl h)⟩
      · rintro (h | ⟨_, hlt⟩)
        · exact absurd h1.symm (ne_of_lt h)
        · rcases (Prod.Lex.lt_iff _ _).mp hlt with h3 | ⟨h3, _⟩
          · exact h3
          · exact absurd h3.symm h2
  · rw [if_pos h1]
    simp only [decide_eq_true_iff, GT.gt]
    constructor
    · intro h
      exact Or.inl h
    · rintro (h | ⟨h, _⟩)
      · exact h
      · exact absurd h h1.symm

end DreddDedup

namespace DreddDedup

theorem pickBest_mem {α : Type} (better : α → α → Bool) :
    ∀ (rest : List α) (r0 : α), pickBest better r0 rest ∈ r0 :: rest := by
  intro rest
  induction rest with
  | nil => intro r0; simp [pickBest]
  | cons r rest ih =>
      intro r0
      show pickBest better (if better r r0 then r else r0) rest ∈ r0 :: r :: rest
      by_cases hb : better r r0 = true
      · rw [if_pos hb]
        rcases List.mem_cons.mp (ih r) with h | h
        · rw [h]
          exact List.mem_cons_of_mem _ (List.mem_cons_self _ _)
        · exact List.mem_cons_of_mem _ (List.mem_cons_of_mem _ h)
      · rw [if_neg hb]
        rcases List.mem_cons.mp (ih r0) with h | h
        · rw [h]
          exact List.mem_cons_self _ _
        · exact List.mem_cons_of_mem _ (List.mem_cons_of_mem _ h)

theorem pickBest_key_max {α K : Type} [LinearOrder K]
    (better : α → α → Bool) (key : α → K)
    (hbk : ∀ a b, better a b = true ↔ key b < key a) :
    ∀ (rest : List α) (r0 x : α), x ∈ r0 :: rest →
      key x ≤ key (pickBest better r0 rest) := by
  intro rest
  induction rest with
  | nil =>
      intro r0 x hx
      rw [List.mem_singleton.mp hx]
      exact le_refl _
  | cons r rest ih =>
      intro r0 x hx
      show key x ≤ key (pickBest better (if better r r0 then r else r0) rest)
      have hbase : key r0 ≤ key (if better r r0 then r else r0)
          ∧ key r ≤ key (if better r r0 then r else r0) := by
        by_cases hb : better r r0 = true
        · rw [if_pos hb]
          exact ⟨le_of_lt ((hbk r r0).mp hb), le_refl _⟩
        · rw [if_neg hb]
          refine ⟨le_refl _, not_lt.mp fun hlt => hb ((hbk r r0).mpr hlt)⟩
      rcases List.mem_cons.mp hx with rfl | hx2
      · exact le_trans hbase.1 (ih _ _ (List.mem_cons_self _ _))
      · rcases List.mem_cons.mp hx2 with rfl | hx3
        · exact le_trans hbase.2 (ih _ _ (List.mem_cons_self _ _))
        · exact ih _ _ (List.mem_cons_of_mem _ hx3)

theorem record_unique_of_nodup {α β : Type} {table : List α} {f : α → β}
    (huniq : (table.map f).Nodup) {a b : α} (ha : a ∈ table) (hb : b ∈ table)
    (hf : f a = f b) : a = b :=
  List.inj_on_of_nodup_map huniq ha hb hf

end DreddDedup

/-- Claim C8: given a non-empty cluster whose ids all resolve to records
(with unique ids in the table), each ranker returns exactly one survivor id;
the survivor belongs to the cluster and its record is maximal in the ranking
order — review-status priority confirmed=3 > pending=2 > rejected=1 >
other=0, then dredd_confidence for patterns and severity priority
critical=4 > high=3 > medium=2 > low=1 > other=0 for decisions, then most
recent created_at — over all fetched records of the cluster. -/
theorem C8_ranker_total_and_priority (ids : List String)
    (ptable : List DreddDedup.ReasoningPatternRecord)
    (dtable : List DreddDedup.DecisionRecord)
    (hne : ids ≠ [])
    (hpcover : ∀ i ∈ ids, ∃ r ∈ ptable, r.id = i)
    (hpuniq : (ptable.map DreddDedup.ReasoningPatternRecord.id).Nodup)
    (hdcover : ∀ i ∈ ids, ∃ r ∈ dtable, r.id = i)
    (hduniq : (dtable.map DreddDedup.DecisionRecord.id).Nodup) :
    (∃ s, DreddDedup.RankReasoningPatterns ids ptable = some s ∧ s ∈ ids
        ∧ ∃ rs ∈ ptable.filter (fun r => ids.contains r.id), rs.id = s
            ∧ ∀ r ∈ ptable.filter (fun r => ids.contains r.id),
                DreddDedup.patKey r ≤ DreddDedup.patKey rs)
    ∧ (∃ s, DreddDedup.RankDecisions ids dtable = some s ∧ s ∈ ids
        ∧ ∃ rs ∈ dtable.filter (fun r => ids.contains r.id), rs.id = s
            ∧ ∀ r ∈ dtable.filter (fun r => ids.contains r.id),
                DreddDedup.decKey r ≤ DreddDedup.decKey rs) := by
  constructor
  · rcases ids with _ | ⟨i1, ids2⟩
    · exact absurd rfl hne
    rcases ids2 with _ | ⟨i2, ids3⟩
    · refine ⟨i1, rfl, List.mem_singleton_self i1, ?_⟩
      rcases hpcover i1 (List.mem_singleton_self i1) with ⟨r, hr, hrid⟩
      have hrf : r ∈ ptable.filter (fun q => [i1].contains q.id) :=
        List.mem_filter.mpr ⟨hr, by rw [hrid]; exact List.elem_iff.mpr (List.mem_singleton_self i1)⟩
      refine ⟨r, hrf, hrid, ?_⟩
      intro r2 hr2
      obtain ⟨hr2t, hr2c⟩ := List.mem_filter.mp hr2
      have hid2 : r2.id = i1 := List.mem_singleton.mp (List.elem_iff.mp hr2c)
      rw [DreddDedup.record_unique_of_nodup hpuniq hr2t hr (by rw [hid2, hrid])]
    · cases hrec : ptable.filter (fun r => (i1 :: i2 :: ids3).contains r.id) with
      | nil =>
          exfalso
          rcases hpcover i1 (List.mem_cons_self _ _) with ⟨r, hr, hrid⟩
          have hmem : r ∈ ptable.filter (fun q => (i1 :: i2 :: ids3).contains q.id) :=
            List.mem_filter.mpr
              ⟨hr, by rw [hrid]; exact List.elem_iff.mpr (List.mem_cons_self _ _)⟩
          rw [hrec] at hmem
          exact absurd hmem (List.not_mem_nil r)
      | cons r0 rest =>
          have hrank : DreddDedup.RankReasoningPatterns (i1 :: i2 :: ids3) ptable
              = match ptable.filter (fun r => (i1 :: i2 :: ids3).contains r.id) with
                | [] => none
                | r0 :: rest =>
                    some (DreddDedup.pickBest DreddDedup.isReasoningPatternBetter r0 rest).id := rfl
          rw [hrec] at hrank
          have hbmem : DreddDedup.pickBest DreddDedup.isReasoningPatternBetter r0 rest
              ∈ r0 :: rest := DreddDedup.pickBest_mem _ rest r0
          have hbmem2 : DreddDedup.pickBest DreddDedup.isReasoningPatternBetter r0 rest
              ∈ ptable.filter (fun q => (i1 :: i2 :: ids3).contains q.id) := by
            rw [hrec]
            exact hbmem
          obtain ⟨hbt, hbc⟩ := List.mem_filter.mp hbmem2
          refine ⟨_, hrank, List.elem_iff.mp hbc, _, hbmem, rfl, ?_⟩
          intro r hrmem
          exact DreddDedup.pickBest_key_max DreddDedup.isReasoningPatternBetter
            DreddDedup.patKey DreddDedup.isReasoningPatternBetter_iff rest r0 r hrmem
  · rcases ids with _ | ⟨i1, ids2⟩
    · exact absurd rfl hne
    rcases ids2 with _ | ⟨i2, ids3⟩
    · refine ⟨i1, rfl, List.mem_singleton_self i1, ?_⟩
      rcases hdcover i1 (List.mem_singleton_self i1) with ⟨r, hr, hrid⟩
      have hrf : r ∈ dtable.filter (fun q => [i1].contains q.id) :=
        List.mem_filter.mpr ⟨hr, by rw [hrid]; exact List.elem_iff.mpr (List.mem_singleton_self i1)⟩
      refine ⟨r, hrf, hrid, ?_⟩
      intro r2 hr2
      obtain ⟨hr2t, hr2c⟩ := List.mem_filter.mp hr2
      have hid2 : r2.id = i1 := List.mem_singleton.mp (List.elem_iff.mp hr2c)
      rw [DreddDedup.record_unique_of_nodup hduniq hr2t hr (by rw [hid2, hrid])]
    · cases hrec : dtable.filter (fun r => (i1 :: i2 :: ids3).contains r.id) with
      | nil =>
          exfalso
          rcases hdcover i1 (List.mem_cons_self _ _) with ⟨r, hr, hrid⟩
          have hmem : r ∈ dtable.filter (fun q => (i1 :: i2 :: ids3).contains q.id) :=
            List.mem_filter.mpr
              ⟨hr, by rw [hrid]; exact List.elem_iff.mpr (List.mem_cons_self _ _)⟩
          rw [hrec] at hmem
          exact absurd hmem (List.not_mem_nil r)
      | cons r0 rest =>
          have hrank : DreddDedup.RankDecisions (i1 :: i2 :: ids3) dtable
              = match dtable.filter (fun r => (i1 :: i2 :: ids3).contains r.id) with
                | [] => none
                | r0 :: rest =>
                    some (DreddDedup.pickBest DreddDedup.isDecisionBetter r0 rest).id := rfl
          rw [hrec] at hrank
          have hbmem : DreddDedup.pickBest DreddDedup.isDecisionBetter r0 rest
              ∈ r0 :: rest := DreddDedup.pickBest_mem _ rest r0
          have hbmem2 : DreddDedup.pickBest DreddDedup.isDecisionBetter r0 rest
              ∈ dtable.filter (fun q => (i1 :: i2 :: ids3).contains q.id) := by
            rw [hrec]
            exact hbmem
          obtain ⟨hbt, hbc⟩ := List.mem_filter.mp hbmem2
          refine ⟨_, hrank, List.elem_iff.mp hbc, _, hbmem, rfl, ?_⟩
          intro r hrmem
          exact DreddDedup.pickBest_key_max DreddDedup.isDecisionBetter
            DreddDedup.decKey DreddDedup.isDecisionBetter_iff rest r0 r hrmem

/-- Concrete pattern table for the C8 witness. -/
def pTableEx : List DreddDedup.ReasoningPatternRecord :=
  [⟨"a", "confirmed", 1, 0⟩, ⟨"b", "rejected", 1, 0⟩]

/-- Concrete decision table for the C8 witness. -/
def dTableEx : List DreddDedup.DecisionRecord :=
  [⟨"a", "pending", "critical", 0⟩, ⟨"b", "pending", "low", 5⟩]

/-- Witness for C8: the two-element cluster a, b with concrete records
satisfies every hypothesis, and both rankers return one maximal survivor. -/
theorem C8_ranker_total_and_priority_witness :
    (["a", "b"] ≠ ([] : List String))
    ∧ (∀ i ∈ ["a", "b"], ∃ r ∈ pTableEx, r.id = i)
    ∧ (pTableEx.map DreddDedup.ReasoningPatternRecord.id).Nodup
    ∧ (∀ i ∈ ["a", "b"], ∃ r ∈ dTableEx, r.id = i)
    ∧ (dTableEx.map DreddDedup.DecisionRecord.id).Nodup
    ∧ ((∃ s, DreddDedup.RankReasoningPatterns ["a", "b"] pTableEx = some s ∧ s ∈ ["a", "b"]
          ∧ ∃ rs ∈ pTableEx.filter (fun r => ["a", "b"].contains r.id), rs.id = s
              ∧ ∀ r ∈ pTableEx.filter (fun r => ["a", "b"].contains r.id),
                  DreddDedup.patKey r ≤ DreddDedup.patKey rs)
        ∧ (∃ s, DreddDedup.RankDecisions ["a", "b"] dTableEx = some s ∧ s ∈ ["a", "b"]
          ∧ ∃ rs ∈ dTableEx.filter (fun r => ["a", "b"].contains r.id), rs.id = s
              ∧ ∀ r ∈ dTableEx.filter (fun r => ["a", "b"].contains r.id),
                  DreddDedup.decKey r ≤ DreddDedup.decKey rs)) :=
  ⟨by decide, by decide, by decide, by decide, by decide,
   C8_ranker_total_and_priority ["a", "b"] pTableEx dTableEx (by decide)
     (by decide) (by decide) (by decide) (by decide)⟩

/-! ## Review orchestrator (internal/processor/processor.go, internal/slack)

The two pending maps, the trust table and the enabled collaborators form
the processor state; store writes, bus publishes and Slack thread posts
become an explicit effect list.  HandleReaction and its helpers are
translated clause by clause; Go map delete becomes an assoc-list erase.
-/

namespace DreddProcessor

/-- Embeds slack.ReviewVerdict. -/
inductive ReviewVerdict where
  | confirmed
  | rejected
  | skipped
  | unknown
deriving DecidableEq, Repr

/-- The string value of a verdict (the Go constants). -/
def verdictString : ReviewVerdict → String
  | .confirmed => "confirmed"
  | .rejected => "rejected"
  | .skipped => "skipped"
  | .unknown => "unknown"

/-- Embeds slack.ParseReaction. -/
def ParseReaction (reaction : String) : ReviewVerdict :=
  if reaction = "+1" ∨ reaction = "thumbsup" then ReviewVerdict.confirmed
  else if reaction = "-1" ∨ reaction = "thumbsdown" then ReviewVerdict.rejected
  else if reaction = "shrug" then ReviewVerdict.skipped
  else ReviewVerdict.unknown

/-- The extractor.DecisionEpisode fields the reaction path reads. -/
structure DecisionEpisode where
  summary : String
  category : String
  severity : String
  agentID : String
  signalType : String
  modelID : String
  modelTier : String
deriving DecidableEq, Repr

/-- The extractor.ReasoningPattern fields the reaction path reads. -/
structure ReasoningPattern where
  patternType : String
  summary : String
  tags : List String
deriving DecidableEq, Repr

/-- Embeds processor.pendingItem. -/
structure PendingItem where
  sessionRef : String
  ownerUUID : String
  kind : String
  idx : Nat
  storedID : String
  decision : Option DecisionEpisode
  pattern : Option ReasoningPattern
deriving DecidableEq, Repr

/-- Embeds processor.pendingReview. -/
structure PendingReview where
  sessionRef : String
  ownerUUID : String
  headerTS : String
  decisionIDs : List String
  patternIDs : List String
  decisions : List DecisionEpisode
  patterns : List ReasoningPattern
deriving DecidableEq, Repr

/-- Embeds store.TrustRecord (the fields the reaction path reads). -/
structure TrustRecord where
  trustScore : ℚ
  totalDecisions : Nat
  correctDecisions : Nat
  criticalFailures : Nat
deriving DecidableEq, Repr

/-- The Processor state: both pending maps, the trust relation behind
GetTrust/UpsertTrust, and whether the Slack poster and the bus client are
configured (non-nil). -/
structure ProcState where
  pendingItems : List (String × PendingItem)
  pendingReviews : List (String × PendingReview)
  trust : List ((String × String × String) × TrustRecord)
  hasSlack : Bool
  hasHermes : Bool
deriving DecidableEq, Repr

/-- An observable side effect of reaction handling: a review-status store
write, a bus publish, a trust upsert, or a Slack thread post. -/
inductive Effect where
  | updateDecisionReviewStatus (id status note : String)
  | updatePatternReviewStatus (id status note : String)
  | publish (subject : String) (payload : List (String × String))
  | upsertTrust (agentID category severity : String) (score : ℚ)
      (total correct criticalFailures : Nat)
  | postThread (threadTS text : String)
deriving DecidableEq, Repr

/-- Go map lookup on an assoc list. -/
def mapLookup {β : Type} (m : List (String × β)) (k : String) : Option β :=
  (m.find? fun e => decide (e.1 = k)).map Prod.snd

/-- Go map delete on an assoc list. -/
def mapErase {β : Type} (m : List (String × β)) (k : String) : List (String × β) :=
  m.filter fun e => ! decide (e.1 = k)

/-- Trust-map lookup (store.GetTrust; a missing row is the Go error case). -/
def trustLookup (m : List ((String × String × String) × TrustRecord))
    (k : String × String × String) : Option TrustRecord :=
  (m.find? fun e => decide (e.1 = k)).map Prod.snd

/-- Trust-map upsert (the state change behind store.UpsertTrust). -/
def trustSet (m : List ((String × String × String) × TrustRecord))
    (k : String × String × String) (v : TrustRecord) :
    List ((String × String × String) × TrustRecord) :=
  (k, v) :: m.filter fun e => ! decide (e.1 = k)

/-- Embeds processor.outcomeStr. -/
def outcomeStr (correct : Bool) : String :=
  if correct then "correct" else "incorrect"

/-- The per-decision signal block shared verbatim by
Processor.handleItemReaction and Processor.emitDecisionSignals: trust
signal and trust read-modify-write when the decision names an agent,
assignment signal when it carries a signal type, extraction.rejected on a
rejection, and always the correction record.  Returns the effects and the
updated trust relation. -/
def emitDecisionSignals (trust : List ((String × String × String) × TrustRecord))
    (hasHermes : Bool) (sessionRef decisionID : String) (dec : DecisionEpisode)
    (verdict : ReviewVerdict) : List Effect × List ((String × String × String) × TrustRecord) :=
  let correct := verdict = ReviewVerdict.confirmed
  let trustPart :
      List Effect × List ((String × String × String) × TrustRecord) :=
    if dec.agentID ≠ "" then
      let pub := Effect.publish "swarm.dredd.trust.signal"
        [("agent_id", dec.agentID), ("category", dec.category),
         ("outcome", outcomeStr correct), ("severity", dec.severity),
         ("session_ref", sessionRef)]
      match trustLookup trust (dec.agentID, dec.category, dec.severity) with
      | none =>
          let score := DreddTrust.UpdateScoreWithSentiment 0.0 dec.severity correct ""
          let correctCount := if correct then 1 else 0
          ([pub, Effect.upsertTrust dec.agentID dec.category dec.severity score 1 correctCount 0],
           trustSet trust (dec.agentID, dec.category, dec.severity)
             ⟨score, 1, correctCount, 0⟩)
      | some trec =>
          let newScore :=
            DreddTrust.UpdateScoreWithSentiment trec.trustScore dec.severity correct ""
          let total := trec.totalDecisions + 1
          let correctCount := trec.correctDecisions + (if correct then 1 else 0)
          ([pub, Effect.upsertTrust dec.agentID dec.category dec.severity newScore
              total correctCount trec.criticalFailures],
           trustSet trust (dec.agentID, dec.category, dec.severity)
             ⟨newScore, total, correctCount, trec.criticalFailures⟩)
    else ([], trust)
  let assignEffs :=
    if dec.signalType ≠ "" then
      [Effect.publish "swarm.dredd.assignment.signal"
        [("signal_type", dec.signalType), ("agent_id", dec.agentID),
         ("category", dec.category), ("severity", dec.severity),
         ("session_ref", sessionRef)]]
    else []
  let rejectEffs :=
    if ¬ correct then
      [Effect.publish "swarm.dredd.extraction.rejected"
        [("session_ref", sessionRef), ("decision", dec.summary),
         ("category", dec.category)]]
    else []
  let correctionType := if correct then "confirmed" else "rejected"
  let correctionEffs :=
    if hasHermes = true then
      [Effect.publish "swarm.dredd.correction"
        [("session_ref", sessionRef), ("decision_id", decisionID),
         ("agent_id", dec.agentID), ("model_id", dec.modelID),
         ("model_tier", dec.modelTier), ("correction_type", correctionType),
         ("category", dec.category), ("severity", dec.severity)]]
    else []
  (trustPart.1 ++ assignEffs ++ rejectEffs ++ correctionEffs, trustPart.2)

/-- Embeds Processor.handleItemReaction (reaction on one thread reply). -/
def handleItemReaction (σ : ProcState) (item : PendingItem)
    (verdict : ReviewVerdict) (messageTS : String) : ProcState × List Effect :=
  let status := verdictString verdict
  if item.kind = "decision" then
    let upd := [Effect.updateDecisionReviewStatus item.storedID status ""]
    let sigRes :=
      match item.decision with
      | some dec =>
          if verdict = ReviewVerdict.confirmed ∨ verdict = ReviewVerdict.rejected then
            emitDecisionSignals σ.trust σ.hasHermes item.sessionRef item.storedID dec verdict
          else ([], σ.trust)
      | none => ([], σ.trust)
    let postEffs :=
      if verdict = ReviewVerdict.rejected ∧ σ.hasSlack = true then
        [Effect.postThread messageTS
          "What did I get wrong? Your correction is the highest-value training signal."]
      else []
    ({σ with trust := sigRes.2}, upd ++ sigRes.1 ++ postEffs)
  else if item.kind = "pattern" then
    let upd := [Effect.updatePatternReviewStatus item.storedID status ""]
    let confEffs :=
      match item.pattern with
      | some pat =>
          if verdict = ReviewVerdict.confirmed then
            [Effect.publish "swarm.dredd.pattern.confirmed"
              [("pattern_type", pat.patternType), ("summary", pat.summary),
               ("tags", String.intercalate "," pat.tags),
               ("owner_uuid", item.ownerUUID), ("session_ref", item.sessionRef)]]
          else []
      | none => []
    let postEffs :=
      if verdict = ReviewVerdict.rejected ∧ σ.hasSlack = true then
        [Effect.postThread messageTS "What did I get wrong about this pattern?"]
      else []
    (σ, upd ++ confEffs ++ postEffs)
  else (σ, [])

/-- The header-level branch of Processor.HandleReaction: update every
decision and pattern of the review, emit per-decision signals on a
confirmed or rejected verdict, publish pattern.confirmed for every pattern
on a confirmation, and post the correction prompt on a rejection. -/
def handleHeaderReaction (σ : ProcState) (review : PendingReview)
    (verdict : ReviewVerdict) (messageTS : String) : ProcState × List Effect :=
  let status := verdictString verdict
  let folded := review.decisionIDs.enum.foldl
    (fun (acc : List Effect × List ((String × String × String) × TrustRecord)) p =>
      let upd := Effect.updateDecisionReviewStatus p.2 status ""
      if verdict = ReviewVerdict.confirmed ∨ verdict = ReviewVerdict.rejected then
        match review.decisions[p.1]? with
        | some dec =>
            let res := emitDecisionSignals acc.2 σ.hasHermes review.sessionRef p.2 dec verdict
            (acc.1 ++ [upd] ++ res.1, res.2)
        | none => (acc.1 ++ [upd], acc.2)
      else (acc.1 ++ [upd], acc.2))
    ([], σ.trust)
  let patEffs := review.patternIDs.map fun id =>
    Effect.updatePatternReviewStatus id status ""
  let confEffs :=
    if verdict = ReviewVerdict.confirmed then
      review.patterns.map fun pat =>
        Effect.publish "swarm.dredd.pattern.confirmed"
          [("pattern_type", pat.patternType), ("summary", pat.summary),
           ("tags", String.intercalate "," pat.tags),
           ("owner_uuid", review.ownerUUID), ("session_ref", review.sessionRef)]
    else []
  let postEffs :=
    if verdict = ReviewVerdict.rejected ∧ σ.hasSlack = true then
      [Effect.postThread messageTS
        "What did I get wrong? Your correction is the highest-value training signal."]
    else []
  ({σ with trust := folded.2}, folded.1 ++ patEffs ++ confEffs ++ postEffs)

/-- Embeds Processor.HandleReaction: parse the verdict, drop unknown
reactions, try the per-item map first (consume-and-delete), then fall back
to the header map (consume-and-delete), else drop silently. -/
def HandleReaction (σ : ProcState) (reaction messageTS : String) :
    ProcState × List Effect :=
  let verdict := ParseReaction reaction
  if verdict = ReviewVerdict.unknown then (σ, [])
  else
    match mapLookup σ.pendingItems messageTS with
    | some item =>
        handleItemReaction {σ with pendingItems := mapErase σ.pendingItems messageTS}
          item verdict messageTS
    | none =>
        match mapLookup σ.pendingReviews messageTS with
        | none => (σ, [])
        | some review =>
            handleHeaderReaction
              {σ with pendingReviews := mapErase σ.pendingReviews messageTS}
              review verdict messageTS

theorem mapLookup_mapErase_self {β : Type} (m : List (String × β)) (k : String) :
    mapLookup (mapErase m k) k = none := by
  unfold mapLookup mapErase
  rw [Option.map_eq_none', List.find?_eq_none]
  intro e he
  have := (List.mem_filter.mp he).2
  simp only [Bool.not_eq_eq_eq_not, Bool.not_true, decide_eq_false_iff_not] at this
  simpa using this

theorem handleItemReaction_pendingItems (σ : ProcState) (item : PendingItem)
    (verdict : ReviewVerdict) (ts : String) :
    (handleItemReaction σ item verdict ts).1.pendingItems = σ.pendingItems := by
  unfold handleItemReaction
  split_ifs <;> rfl

theorem handleItemReaction_pendingReviews (σ : ProcState) (item : PendingItem)
    (verdict : ReviewVerdict) (ts : String) :
    (handleItemReaction σ item verdict ts).1.pendingReviews = σ.pendingReviews := by
  unfold handleItemReaction
  split_ifs <;> rfl

theorem handleHeaderReaction_pendingItems (σ : ProcState) (review : PendingReview)
    (verdict : ReviewVerdict) (ts : String) :
    (handleHeaderReaction σ review verdict ts).1.pendingItems = σ.pendingItems := rfl

theorem handleHeaderReaction_pendingReviews (σ : ProcState) (review : PendingReview)
    (verdict : ReviewVerdict) (ts : String) :
    (handleHeaderReaction σ review verdict ts).1.pendingReviews = σ.pendingReviews := rfl

end DreddProcessor

namespace DreddProcessor

theorem handleReaction_consumes (σ : ProcState) (r1 ts : String)
    (hv : ParseReaction r1 ≠ ReviewVerdict.unknown)
    (hdisj : ¬ ((mapLookup σ.pendingItems ts).isSome = true
        ∧ (mapLookup σ.pendingReviews ts).isSome = true)) :
    mapLookup (HandleReaction σ r1 ts).1.pendingItems ts = none
    ∧ mapLookup (HandleReaction σ r1 ts).1.pendingReviews ts = none := by
  simp only [HandleReaction, if_neg hv]
  cases hitem : mapLookup σ.pendingItems ts with
  | some item =>
      constructor
      · rw [handleItemReaction_pendingItems]
        exact mapLookup_mapErase_self _ _
      · rw [handleItemReaction_pendingReviews]
        show mapLookup σ.pendingReviews ts = none
        rcases hrev : mapLookup σ.pendingReviews ts with _ | review
        · rfl
        · exact absurd ⟨by rw [hitem]; rfl, by rw [hrev]; rfl⟩ hdisj
  | none =>
      cases hrev : mapLookup σ.pendingReviews ts with
      | none => exact ⟨hitem, hrev⟩
      | some review =>
          constructor
          · rw [handleHeaderReaction_pendingItems]
            exact hitem
          · rw [handleHeaderReaction_pendingReviews]
            exact mapLookup_mapErase_self _ _

theorem handleReaction_noop (σ : ProcState) (r ts : String)
    (hitem : mapLookup σ.pendingItems ts = none)
    (hrev : mapLookup σ.pendingReviews ts = none) :
    HandleReaction σ r ts = (σ, []) := by
  simp only [HandleReaction, hitem, hrev]
  split_ifs <;> rfl

end DreddProcessor

/-- Claim C1: the review transition is single-shot.  For any processor
state in which the reacted message timestamp does not key both pending maps
at once (distinct Slack messages have distinct timestamps), once a first
reaction with a non-unknown verdict has been handled, handling any second
reaction on the same timestamp leaves the state unchanged and produces no
effects at all — no review-status store writes and no bus publishes. -/
theorem C1_review_transition_single_shot (σ : DreddProcessor.ProcState)
    (r1 r2 ts : String)
    (hv : DreddProcessor.ParseReaction r1 ≠ DreddProcessor.ReviewVerdict.unknown)
    (hdisj : ¬ ((DreddProcessor.mapLookup σ.pendingItems ts).isSome = true
        ∧ (DreddProcessor.mapLookup σ.pendingReviews ts).isSome = true)) :
    DreddProcessor.HandleReaction (DreddProcessor.HandleReaction σ r1 ts).1 r2 ts
      = ((DreddProcessor.HandleReaction σ r1 ts).1, []) := by
  obtain ⟨h1, h2⟩ := DreddProcessor.handleReaction_consumes σ r1 ts hv hdisj
  exact DreddProcessor.handleReaction_noop _ r2 ts h1 h2

/-- A concrete pending decision item used by the C1 and C2 witnesses: no
agent and no signal type, so the reaction path emits only the status write
and the correction record. -/
def decEx : DreddProcessor.DecisionEpisode :=
  ⟨"use pgx", "architecture", "routine", "", "", "m1", "tier1"⟩

/-- A concrete per-item pending entry at timestamp T. -/
def itemEx : DreddProcessor.PendingItem :=
  ⟨"sess-1", "owner-1", "decision", 0, "dec-id-1", some decEx, none⟩

/-- A concrete header-level pending review at timestamp H for the same
stored decision. -/
def reviewEx : DreddProcessor.PendingReview :=
  ⟨"sess-1", "owner-1", "H", ["dec-id-1"], [], [decEx], []⟩

/-- A concrete processor state tracking both the per-item entry at T and
the header entry at H. -/
def procStateEx : DreddProcessor.ProcState :=
  ⟨[("T", itemEx)], [("H", reviewEx)], [], true, true⟩

/-- Witness for C1: in the concrete state, a +1 followed by a -1 on the
same item timestamp T leaves the post-reaction state untouched with no
effects. -/
theorem C1_review_transition_single_shot_witness :
    (DreddProcessor.ParseReaction "+1" ≠ DreddProcessor.ReviewVerdict.unknown)
    ∧ (¬ ((DreddProcessor.mapLookup procStateEx.pendingItems "T").isSome = true
        ∧ (DreddProcessor.mapLookup procStateEx.pendingReviews "T").isSome = true))
    ∧ DreddProcessor.HandleReaction
          (DreddProcessor.HandleReaction procStateEx "+1" "T").1 "-1" "T"
        = ((DreddProcessor.HandleReaction procStateEx "+1" "T").1, []) :=
  ⟨by decide, by decide,
   C1_review_transition_single_shot procStateEx "+1" "-1" "T" (by decide) (by decide)⟩

/-- Claim C2 fails on the code: in the concrete state that tracks the
review both per item (timestamp T) and at header level (timestamp H), the
first non-unknown reaction (+1 on T) deletes the per-item entry but leaves
the header entry in place. -/
theorem C2_counterexample_header_entry_survives :
    (DreddProcessor.ParseReaction "+1" ≠ DreddProcessor.ReviewVerdict.unknown)
    ∧ DreddProcessor.mapLookup procStateEx.pendingItems "T" = some itemEx
    ∧ DreddProcessor.mapLookup procStateEx.pendingReviews "H" = some reviewEx
    ∧ DreddProcessor.mapLookup
        (DreddProcessor.HandleReaction procStateEx "+1" "T").1.pendingItems "T" = none
    ∧ DreddProcessor.mapLookup
        (DreddProcessor.HandleReaction procStateEx "+1" "T").1.pendingReviews "H"
        = some reviewEx := by
  refine ⟨by decide, by decide, by decide, by decide, by decide⟩

/-- Claim C2 (amended): the first non-unknown reaction removes only the
entry it matched: a per-item reaction removes the per-item entry and leaves
the header map untouched, while a header-level reaction (timestamp found
only in the header map) removes the header entry and leaves the per-item
map untouched. -/
theorem C2_first_reaction_removes_only_matched_entry
    (σ : DreddProcessor.ProcState) (r ts : String)
    (hv : DreddProcessor.ParseReaction r ≠ DreddProcessor.ReviewVerdict.unknown) :
    (∀ item, DreddProcessor.mapLookup σ.pendingItems ts = some item →
        (DreddProcessor.HandleReaction σ r ts).1.pendingItems
            = DreddProcessor.mapErase σ.pendingItems ts
        ∧ (DreddProcessor.HandleReaction σ r ts).1.pendingReviews = σ.pendingReviews)
    ∧ (DreddProcessor.mapLookup σ.pendingItems ts = none →
        ∀ review, DreddProcessor.mapLookup σ.pendingReviews ts = some review →
          (DreddProcessor.HandleReaction σ r ts).1.pendingReviews
              = DreddProcessor.mapErase σ.pendingReviews ts
          ∧ (DreddProcessor.HandleReaction σ r ts).1.pendingItems = σ.pendingItems) := by
  constructor
  · intro item hitem
    simp only [DreddProcessor.HandleReaction, if_neg hv, hitem]
    exact ⟨DreddProcessor.handleItemReaction_pendingItems _ _ _ _,
      DreddProcessor.handleItemReaction_pendingReviews _ _ _ _⟩
  · intro hitem review hrev
    simp only [DreddProcessor.HandleReaction, if_neg hv, hitem, hrev]
    exact ⟨DreddProcessor.handleHeaderReaction_pendingReviews _ _ _ _,
      DreddProcessor.handleHeaderReaction_pendingItems _ _ _ _⟩

/-- Witness for C2 (amended): in the concrete state, +1 on item timestamp T
erases the per-item entry and leaves the header map unchanged. -/
theorem C2_first_reaction_removes_only_matched_entry_witness :
    (DreddProcessor.ParseReaction "+1" ≠ DreddProcessor.ReviewVerdict.unknown)
    ∧ DreddProcessor.mapLookup procStateEx.pendingItems "T" = some itemEx
    ∧ ((DreddProcessor.HandleReaction procStateEx "+1" "T").1.pendingItems
          = DreddProcessor.mapErase procStateEx.pendingItems "T"
        ∧ (DreddProcessor.HandleReaction procStateEx "+1" "T").1.pendingReviews
          = procStateEx.pendingReviews) :=
  ⟨by decide, by decide,
   (C2_first_reaction_removes_only_matched_entry procStateEx "+1" "T" (by decide)).1
     itemEx (by decide)⟩

/-! ## Union-find clustering (internal/dedup/dedup.go, clusterPairs)

The Go map parent[id] with path compression is embedded as a function
α → α together with the explicit key list dom; find carries fuel equal to
the number of keys, which the forest invariant proves sufficient.  Group
collection iterates dom in order (the determinization of Go map
iteration, which is irrelevant to the set-of-sets claims proved here).
-/

namespace DreddUF

variable {α : Type} [DecidableEq α]

/-- The union-find store: the set of keys of the Go parent map, and the
parent function (identity outside the keys, mirroring absent entries). -/
structure UFState (α : Type) where
  dom : List α
  parent : α → α

/-- Insert an id as its own parent unless already present (the
if !exists { parent[id] = id } initialization step). -/
def ufAdd (s : UFState α) (a : α) : UFState α :=
  if s.dom.contains a then s
  else ⟨s.dom ++ [a], Function.update s.parent a a⟩

/-- The initialization loop of clusterPairs: each id of each pair becomes
its own parent unless already present. -/
def ufInit (pairs : List (α × α)) : UFState α :=
  pairs.foldl (fun s q => ufAdd (ufAdd s q.1) q.2) ⟨[], fun a => a⟩

/-- The find function with path compression, fuelled: follow the parent
chain to the root and repoint every visited node at it.  The fuel is
irrelevant on well-formed forests (proved below) and mirrors the
terminating Go recursion. -/
def findAux (fuel : Nat) (p : α → α) (x : α) : α × (α → α) :=
  match fuel with
  | 0 => (x, p)
  | fuel + 1 =>
      if p x = x then (x, p)
      else
        let res := findAux fuel p (p x)
        (res.1, Function.update res.2 x res.1)

/-- The union of clusterPairs: find both roots and, when they differ, point
the second root at the first. -/
def ufUnion (s : UFState α) (x y : α) : UFState α :=
  let res1 := findAux s.dom.length s.parent x
  let res2 := findAux s.dom.length res1.2 y
  if res1.1 = res2.1 then ⟨s.dom, res2.2⟩
  else ⟨s.dom, Function.update res2.2 res2.1 res1.1⟩

/-- Initialization followed by one union per pair. -/
def ufProcess (pairs : List (α × α)) : UFState α :=
  pairs.foldl (fun s q => ufUnion s q.1 q.2) (ufInit pairs)

/-- Append an id to the group of its root (the groups[root] = append of
clusterPairs). -/
def addToGroups (groups : List (α × List α)) (root id : α) : List (α × List α) :=
  match groups with
  | [] => [(root, [id])]
  | g :: rest =>
      if g.1 = root then (g.1, g.2 ++ [id]) :: rest
      else g :: addToGroups rest root id

/-- The grouping loop of clusterPairs: find (still compressing) the root of
every key and collect the keys per root. -/
def groupPhase (fuel : Nat) : List α → (α → α) → List (α × List α) → List (α × List α)
  | [], _, groups => groups
  | x :: rest, p, groups =>
      let res := findAux fuel p x
      groupPhase fuel rest res.2 (addToGroups groups res.1 x)

/-- Embeds Deduplicator.clusterPairs: union-find over the pair list, then
the connected groups with more than one member.  Pair similarity scores are
not consulted by the Go code and are omitted from the pair type. -/
def clusterPairs (pairs : List (α × α)) : List (List α) :=
  if pairs = [] then []
  else
    let s := ufProcess pairs
    let groups := groupPhase s.dom.length s.dom s.parent []
    (groups.map Prod.snd).filter fun c => decide (1 < c.length)

end DreddUF

namespace DreddUF

variable {α : Type} [DecidableEq α]

/-- No non-trivial cycles: any element returning to itself is a fixed
point. -/
def Cyclefree (p : α → α) : Prop :=
  ∀ z n, 0 < n → p^[n] z = z → p z = z

/-- y lies on the parent chain of x. -/
def Reaches (p : α → α) (x y : α) : Prop :=
  ∃ n, p^[n] x = y

/-- r is the root of x: reachable along the chain and a fixed point. -/
def RootOf (p : α → α) (x r : α) : Prop :=
  Reaches p x r ∧ p r = r

/-- x and y share a root. -/
def SameRoot (p : α → α) (x y : α) : Prop :=
  ∃ r, RootOf p x r ∧ RootOf p y r

/-- The parent chain of x reaches a fixed point within the fuel. -/
def ReachesIn (p : α → α) (fuel : Nat) (x : α) : Prop :=
  ∃ k ≤ fuel, p (p^[k] x) = p^[k] x

/-- The forest invariant of the embedded union-find store. -/
structure UFInv (s : UFState α) : Prop where
  closed : ∀ x ∈ s.dom, s.parent x ∈ s.dom
  outside : ∀ x, x ∉ s.dom → s.parent x = x
  nodup : s.dom.Nodup
  cyclefree : Cyclefree s.parent

theorem reaches_refl (p : α → α) (x : α) : Reaches p x x := ⟨0, rfl⟩

theorem reaches_parent (p : α → α) (x : α) : Reaches p x (p x) :=
  ⟨1, by simp⟩

theorem reaches_trans {p : α → α} {x y z : α} (h1 : Reaches p x y)
    (h2 : Reaches p y z) : Reaches p x z := by
  obtain ⟨n, hn⟩ := h1
  obtain ⟨m, hm⟩ := h2
  exact ⟨m + n, by rw [Function.iterate_add_apply, hn, hm]⟩

theorem reaches_fixed {p : α → α} {r w : α} (hfix : p r = r)
    (h : Reaches p r w) : w = r := by
  obtain ⟨n, hn⟩ := h
  rw [Function.iterate_fixed hfix n] at hn
  exact hn.symm

theorem rootOf_unique {p : α → α} {x r1 r2 : α} (h1 : RootOf p x r1)
    (h2 : RootOf p x r2) : r1 = r2 := by
  obtain ⟨⟨n, hn⟩, hr1⟩ := h1
  obtain ⟨⟨m, hm⟩, hr2⟩ := h2
  rcases le_total n m with h | h
  · have : p^[m] x = p^[m - n] (p^[n] x) := by
      rw [← Function.iterate_add_apply]
      congr 1
      omega
    rw [hn, Function.iterate_fixed hr1] at this
    rw [this] at hm
    exact hm
  · have : p^[n] x = p^[n - m] (p^[m] x) := by
      rw [← Function.iterate_add_apply]
      congr 1
      omega
    rw [hm, Function.iterate_fixed hr2] at this
    rw [this] at hn
    exact hn.symm

theorem rootOf_parent {p : α → α} {x r : α} (h : RootOf p x r) :
    RootOf p (p x) r := by
  obtain ⟨⟨n, hn⟩, hr⟩ := h
  rcases n with _ | n
  · refine ⟨⟨0, ?_⟩, hr⟩
    simp only [Function.iterate_zero, id_eq] at hn ⊢
    rw [hn, hr]
  · exact ⟨⟨n, by rw [← Function.iterate_succ_apply]; exact hn⟩, hr⟩

theorem rootOf_of_parent {p : α → α} {x r : α} (h : RootOf p (p x) r) :
    RootOf p x r := by
  obtain ⟨⟨n, hn⟩, hr⟩ := h
  exact ⟨⟨n + 1, by rw [Function.iterate_succ_apply]; exact hn⟩, hr⟩

theorem iterate_mem_dom {s : UFState α} (hinv : UFInv s) {x : α}
    (hx : x ∈ s.dom) (n : Nat) : s.parent^[n] x ∈ s.dom := by
  induction n with
  | zero => simpa using hx
  | succ n ih =>
      rw [Function.iterate_succ_apply']
      exact hinv.closed _ ih

theorem reaches_mem_dom {s : UFState α} (hinv : UFInv s) {x y : α}
    (hx : x ∈ s.dom) (h : Reaches s.parent x y) : y ∈ s.dom := by
  obtain ⟨n, hn⟩ := h
  rw [← hn]
  exact iterate_mem_dom hinv hx n

theorem chain_bound {s : UFState α} (hinv : UFInv s) (x : α) :
    ReachesIn s.parent s.dom.length x := by
  by_cases hx : x ∈ s.dom
  · by_contra hcon
    unfold ReachesIn at hcon
    push_neg at hcon
    have hne : ∀ k ≤ s.dom.length, s.parent (s.parent^[k] x) ≠ s.parent^[k] x :=
      hcon
    have hinj : ∀ i ∈ List.range (s.dom.length + 1),
        ∀ j ∈ List.range (s.dom.length + 1),
        s.parent^[i] x = s.parent^[j] x → i = j := by
      have hcore : ∀ i j, i < j → j ≤ s.dom.length →
          s.parent^[i] x ≠ s.parent^[j] x := by
        intro i j hij hjn heq
        have hcy : s.parent^[j - i] (s.parent^[i] x) = s.parent^[i] x := by
          rw [← Function.iterate_add_apply]
          have : j - i + i = j := by omega
          rw [this]
          exact heq.symm
        have := hinv.cyclefree (s.parent^[i] x) (j - i) (by omega) hcy
        exact hne i (by omega) this
      intro i hi j hj heq
      rw [List.mem_range] at hi hj
      rcases lt_trichotomy i j with h | h | h
      · exact absurd heq (hcore i j h (by omega))
      · exact h
      · exact absurd heq.symm (hcore j i h (by omega))
    have hnodup : ((List.range (s.dom.length + 1)).map
        fun i => s.parent^[i] x).Nodup :=
      List.Nodup.map_on hinj (List.nodup_range _)
    have hsub : ((List.range (s.dom.length + 1)).map fun i => s.parent^[i] x)
        ⊆ s.dom := by
      intro y hy
      rcases List.mem_map.mp hy with ⟨i, _, rfl⟩
      exact iterate_mem_dom hinv hx i
    have hle := (List.Nodup.subperm hnodup hsub).length_le
    simp only [List.length_map, List.length_range] at hle
    omega
  · exact ⟨0, Nat.zero_le _, by simpa using hinv.outside x hx⟩

end DreddUF

namespace DreddUF

variable {α : Type} [DecidableEq α]

theorem findAux_fixed {p : α → α} {x : α} (hx : p x = x) (fuel : Nat) :
    findAux fuel p x = (x, p) := by
  cases fuel with
  | zero => rfl
  | succ fuel => simp [findAux, hx]

theorem cyclefree_update {p : α → α} {a b : α}
    (hb : Function.update p a b b = b) (hcf : Cyclefree p) :
    Cyclefree (Function.update p a b) := by
  intro z n hn hcyc
  set p2 := Function.update p a b with hp2
  have hab : p2 a = b := Function.update_same a b p
  by_cases hz : ∃ i, i < n ∧ p2^[i] z = a
  · obtain ⟨i, hin, hia⟩ := hz
    have hna : p2^[n] a = a := by
      calc p2^[n] a = p2^[n] (p2^[i] z) := by rw [hia]
        _ = p2^[i] (p2^[n] z) := by
            rw [← Function.iterate_add_apply, ← Function.iterate_add_apply,
              Nat.add_comm]
        _ = p2^[i] z := by rw [hcyc]
        _ = a := hia
    have hnb : p2^[n] a = b := by
      rcases n with _ | m
      · omega
      · rw [Function.iterate_succ_apply, hab, Function.iterate_fixed hb]
    have hba : a = b := by rw [← hna, hnb]
    have hafix : p2 a = a := by rw [hab, ← hba]
    have hza : z = a := by
      have hzi : z = p2^[n - i] a := by
        calc z = p2^[n] z := hcyc.symm
          _ = p2^[n - i + i] z := by
              congr 1
              omega
          _ = p2^[n - i] (p2^[i] z) := Function.iterate_add_apply p2 (n - i) i z
          _ = p2^[n - i] a := by rw [hia]
      rw [hzi, Function.iterate_fixed hafix]
    rw [hza]
    exact hafix
  · push_neg at hz
    have hagree : ∀ i, i ≤ n → p2^[i] z = p^[i] z := by
      intro i
      induction i with
      | zero => intro _; rfl
      | succ i ih =>
          intro hi
          have hihi := ih (by omega)
          rw [Function.iterate_succ_apply', Function.iterate_succ_apply', hihi]
          have hne : p^[i] z ≠ a := by
            rw [← hihi]
            exact hz i (by omega)
          exact Function.update_noteq hne b p
    have hcycp : p^[n] z = z := by
      rw [← hagree n (le_refl n)]
      exact hcyc
    have hzne : z ≠ a := by
      simpa using hz 0 hn
    rw [hp2, Function.update_noteq hzne]
    exact hcf z n hn hcycp

theorem rootOf_update_comp_fwd {p : α → α} {x r : α} (hr : RootOf p x r) :
    ∀ n z w, p^[n] z = w → p w = w → RootOf (Function.update p x r) z w := by
  have hpx : Function.update p x r x = r := Function.update_same x r p
  have hrfix : Function.update p x r r = r := by
    by_cases hxr : r = x
    · rw [hxr] at hpx ⊢
      exact hpx
    · rw [Function.update_noteq hxr]
      exact hr.2
  intro n
  induction n with
  | zero =>
      intro z w hn hwfix
      simp only [Function.iterate_zero, id_eq] at hn
      subst hn
      by_cases hzx : z = x
      · subst hzx
        have hrx : r = z := rootOf_unique hr ⟨reaches_refl p z, hwfix⟩
        refine ⟨reaches_refl _ z, ?_⟩
        rw [hpx]
        exact hrx
      · exact ⟨reaches_refl _ z, by rw [Function.update_noteq hzx]; exact hwfix⟩
  | succ n ih =>
      intro z w hn hwfix
      by_cases hzx : z = x
      · subst hzx
        have hwr : w = r := rootOf_unique ⟨⟨n + 1, hn⟩, hwfix⟩ hr
        subst hwr
        exact ⟨⟨1, by simpa using hpx⟩, hrfix⟩
      · have hchain : p^[n] (p z) = w := by
          rw [← Function.iterate_succ_apply]
          exact hn
        have hrec := ih (p z) w hchain hwfix
        refine ⟨reaches_trans ⟨1, ?_⟩ hrec.1, hrec.2⟩
        simpa using Function.update_noteq hzx r p

theorem rootOf_update_comp_bwd {p : α → α} {x r : α} (hr : RootOf p x r) :
    ∀ n z w, (Function.update p x r)^[n] z = w →
      Function.update p x r w = w → RootOf p z w := by
  have hpx : Function.update p x r x = r := Function.update_same x r p
  have hrfix : Function.update p x r r = r := by
    by_cases hxr : r = x
    · rw [hxr] at hpx ⊢
      exact hpx
    · rw [Function.update_noteq hxr]
      exact hr.2
  intro n
  induction n with
  | zero =>
      intro z w hn hwfix
      simp only [Function.iterate_zero, id_eq] at hn
      subst hn
      by_cases hzx : z = x
      · subst hzx
        have hrx : r = z := by
          rw [← hpx]
          exact hwfix
        exact hrx ▸ hr
      · refine ⟨reaches_refl p z, ?_⟩
        rw [Function.update_noteq hzx] at hwfix
        exact hwfix
  | succ n ih =>
      intro z w hn hwfix
      by_cases hzx : z = x
      · subst hzx
        have hwr : w = r := by
          rw [← hn, Function.iterate_succ_apply, hpx,
            Function.iterate_fixed hrfix]
        subst hwr
        exact hr
      · have hstep : Function.update p x r z = p z :=
          Function.update_noteq hzx r p
        have hchain : (Function.update p x r)^[n] (p z) = w := by
          rw [← hstep, ← Function.iterate_succ_apply]
          exact hn
        exact rootOf_of_parent (ih (p z) w hchain hwfix)

theorem rootOf_update_comp {p : α → α} {x r : α} (hr : RootOf p x r)
    (z w : α) : RootOf (Function.update p x r) z w ↔ RootOf p z w := by
  constructor
  · rintro ⟨⟨n, hn⟩, hwfix⟩
    exact rootOf_update_comp_bwd hr n z w hn hwfix
  · rintro ⟨⟨n, hn⟩, hwfix⟩
    exact rootOf_update_comp_fwd hr n z w hn hwfix

theorem rootOf_update_union_bwd {p : α → α} {r1 r2 : α} (h1 : p r1 = r1)
    (h2 : p r2 = r2) (hne : r1 ≠ r2) :
    ∀ n z w, (Function.update p r2 r1)^[n] z = w →
      Function.update p r2 r1 w = w →
      (RootOf p z w ∧ w ≠ r2) ∨ (RootOf p z r2 ∧ w = r1) := by
  have hq2 : Function.update p r2 r1 r2 = r1 := Function.update_same r2 r1 p
  have hq1 : Function.update p r2 r1 r1 = r1 := by
    rw [Function.update_noteq hne]
    exact h1
  intro n
  induction n with
  | zero =>
      intro z w hn hwfix
      simp only [Function.iterate_zero, id_eq] at hn
      subst hn
      have hz2 : z ≠ r2 := by
        intro hz
        subst hz
        rw [hq2] at hwfix
        exact hne hwfix
      rw [Function.update_noteq hz2] at hwfix
      exact Or.inl ⟨⟨reaches_refl p z, hwfix⟩, hz2⟩
  | succ n ih =>
      intro z w hn hwfix
      by_cases hz2 : z = r2
      · subst hz2
        have hwr : w = r1 := by
          rw [← hn, Function.iterate_succ_apply, hq2,
            Function.iterate_fixed hq1]
        exact Or.inr ⟨⟨reaches_refl p z, h2⟩, hwr⟩
      · have hstep : Function.update p r2 r1 z = p z :=
          Function.update_noteq hz2 r1 p
        have hchain : (Function.update p r2 r1)^[n] (p z) = w := by
          rw [← hstep, ← Function.iterate_succ_apply]
          exact hn
        rcases ih (p z) w hchain hwfix with ⟨hroot, hw2⟩ | ⟨hroot, hwr⟩
        · exact Or.inl ⟨rootOf_of_parent hroot, hw2⟩
        · exact Or.inr ⟨rootOf_of_parent hroot, hwr⟩

theorem rootOf_update_union_fwd_left {p : α → α} {r1 r2 : α} (h1 : p r1 = r1)
    (h2 : p r2 = r2) (hne : r1 ≠ r2) :
    ∀ n z w, p^[n] z = w → p w = w → w ≠ r2 →
      RootOf (Function.update p r2 r1) z w := by
  intro n
  induction n with
  | zero =>
      intro z w hn hwfix hw2
      simp only [Function.iterate_zero, id_eq] at hn
      subst hn
      refine ⟨reaches_refl _ z, ?_⟩
      rw [Function.update_noteq hw2]
      exact hwfix
  | succ n ih =>
      intro z w hn hwfix hw2
      by_cases hz2 : z = r2
      · have hwz : w = r2 := by
          rw [← hn, hz2, Function.iterate_fixed h2]
        exact absurd hwz hw2
      · have hchain : p^[n] (p z) = w := by
          rw [← Function.iterate_succ_apply]
          exact hn
        have hrec := ih (p z) w hchain hwfix hw2
        refine ⟨reaches_trans ⟨1, ?_⟩ hrec.1, hrec.2⟩
        simpa using Function.update_noteq hz2 r1 p

theorem rootOf_update_union_fwd_right {p : α → α} {r1 r2 : α} (h1 : p r1 = r1)
    (h2 : p r2 = r2) (hne : r1 ≠ r2) :
    ∀ n z, p^[n] z = r2 → RootOf (Function.update p r2 r1) z r1 := by
  have hq2 : Function.update p r2 r1 r2 = r1 := Function.update_same r2 r1 p
  have hq1 : Function.update p r2 r1 r1 = r1 := by
    rw [Function.update_noteq hne]
    exact h1
  intro n
  induction n with
  | zero =>
      intro z hn
      simp only [Function.iterate_zero, id_eq] at hn
      subst hn
      exact ⟨⟨1, by simpa using hq2⟩, hq1⟩
  | succ n ih =>
      intro z hn
      by_cases hz2 : z = r2
      · subst hz2
        exact ⟨⟨1, by simpa using hq2⟩, hq1⟩
      · have hchain : p^[n] (p z) = r2 := by
          rw [← Function.iterate_succ_apply]
          exact hn
        have hrec := ih (p z) hchain
        refine ⟨reaches_trans ⟨1, ?_⟩ hrec.1, hrec.2⟩
        simpa using Function.update_noteq hz2 r1 p

theorem rootOf_update_union {p : α → α} {r1 r2 : α} (h1 : p r1 = r1)
    (h2 : p r2 = r2) (hne : r1 ≠ r2) (z w : α) :
    RootOf (Function.update p r2 r1) z w ↔
      (RootOf p z w ∧ w ≠ r2) ∨ (RootOf p z r2 ∧ w = r1) := by
  constructor
  · rintro ⟨⟨n, hn⟩, hwfix⟩
    exact rootOf_update_union_bwd h1 h2 hne n z w hn hwfix
  · rintro (⟨⟨⟨n, hn⟩, hwfix⟩, hw2⟩ | ⟨⟨⟨n, hn⟩, _⟩, rfl⟩)
    · exact rootOf_update_union_fwd_left h1 h2 hne n z w hn hwfix hw2
    · exact rootOf_update_union_fwd_right h1 h2 hne n z hn

end DreddUF

namespace DreddUF

variable {α : Type} [DecidableEq α]

theorem findAux_spec (fuel : Nat) (p : α → α) (x : α)
    (hcf : Cyclefree p) (hreach : ReachesIn p fuel x) :
    RootOf p x (findAux fuel p x).1
    ∧ (∀ z w, RootOf (findAux fuel p x).2 z w ↔ RootOf p z w)
    ∧ Cyclefree (findAux fuel p x).2
    ∧ (∀ z, (findAux fuel p x).2 z = p z
        ∨ (findAux fuel p x).2 z = (findAux fuel p x).1)
    ∧ (∀ z, (findAux fuel p x).2 z ≠ p z → Reaches p x z) := by
  induction fuel generalizing x with
  | zero =>
      obtain ⟨k, hk, hfix⟩ := hreach
      have hk0 : k = 0 := by omega
      subst hk0
      simp only [Function.iterate_zero, id_eq] at hfix
      exact ⟨⟨reaches_refl p x, hfix⟩, fun z w => Iff.rfl, hcf,
        fun z => Or.inl rfl, fun z hz => absurd rfl hz⟩
  | succ fuel ih =>
      by_cases hx : p x = x
      · rw [findAux_fixed hx]
        exact ⟨⟨reaches_refl p x, hx⟩, fun z w => Iff.rfl, hcf,
          fun z => Or.inl rfl, fun z hz => absurd rfl hz⟩
      · have hstep : findAux (fuel + 1) p x
            = ((findAux fuel p (p x)).1,
               Function.update (findAux fuel p (p x)).2 x (findAux fuel p (p x)).1) := by
          simp [findAux, hx]
        have hreach2 : ReachesIn p fuel (p x) := by
          obtain ⟨k, hk, hfix⟩ := hreach
          rcases k with _ | k
          · simp only [Function.iterate_zero, id_eq] at hfix
            exact absurd hfix hx
          · refine ⟨k, by omega, ?_⟩
            rw [← Function.iterate_succ_apply]
            exact hfix
        obtain ⟨ihroot, ihiff, ihcf, ihval, ihrea⟩ := ih (p x) hreach2
        have hrootx : RootOf p x (findAux fuel p (p x)).1 :=
          rootOf_of_parent ihroot
        have hrootq : RootOf (findAux fuel p (p x)).2 x (findAux fuel p (p x)).1 :=
          (ihiff x (findAux fuel p (p x)).1).mpr hrootx
        rw [hstep]
        dsimp only
        refine ⟨hrootx, ?_, ?_, ?_, ?_⟩
        · intro z w
          rw [rootOf_update_comp hrootq z w, ihiff z w]
        · have hbfix : Function.update (findAux fuel p (p x)).2 x
              (findAux fuel p (p x)).1 (findAux fuel p (p x)).1
              = (findAux fuel p (p x)).1 := by
            by_cases hrx : (findAux fuel p (p x)).1 = x
            · rw [hrx, Function.update_same]
            · rw [Function.update_noteq hrx]
              exact hrootq.2
          exact cyclefree_update hbfix ihcf
        · intro z
          by_cases hzx : z = x
          · subst hzx
            right
            rw [Function.update_same]
          · rw [Function.update_noteq hzx]
            exact ihval z
        · intro z hz
          by_cases hzx : z = x
          · subst hzx
            exact reaches_refl p z
          · rw [Function.update_noteq hzx] at hz
            exact reaches_trans (reaches_parent p x) (ihrea z hz)

theorem findAux_inv {dom : List α} {p : α → α}
    (hinv : UFInv (⟨dom, p⟩ : UFState α)) (x : α) :
    UFInv (⟨dom, (findAux dom.length p x).2⟩ : UFState α)
    ∧ (∀ z w, RootOf (findAux dom.length p x).2 z w ↔ RootOf p z w)
    ∧ RootOf p x (findAux dom.length p x).1
    ∧ (x ∈ dom → (findAux dom.length p x).1 ∈ dom) := by
  have hreach := chain_bound hinv x
  obtain ⟨hroot, hiff, hcf, hval, hrea⟩ :=
    findAux_spec dom.length p x hinv.cyclefree hreach
  by_cases hx : x ∈ dom
  · have hrdom : (findAux dom.length p x).1 ∈ dom :=
      reaches_mem_dom hinv hx hroot.1
    refine ⟨⟨?_, ?_, hinv.nodup, hcf⟩, hiff, hroot, fun _ => hrdom⟩
    · intro z hz
      dsimp only at hz ⊢
      rcases hval z with h | h
      · rw [h]
        exact hinv.closed z hz
      · rw [h]
        exact hrdom
    · intro z hz
      dsimp only at hz ⊢
      by_cases heq : (findAux dom.length p x).2 z = p z
      · rw [heq]
        exact hinv.outside z hz
      · exact absurd (reaches_mem_dom hinv hx (hrea z heq)) hz
  · have hpxx : p x = x := hinv.outside x hx
    rw [findAux_fixed hpxx]
    exact ⟨hinv, fun z w => Iff.rfl, ⟨reaches_refl p x, hpxx⟩,
      fun hmem => absurd hmem hx⟩

theorem rootOf_exists {s : UFState α} (hinv : UFInv s) (z : α) :
    ∃ r, RootOf s.parent z r := by
  obtain ⟨k, _, hfix⟩ := chain_bound hinv z
  exact ⟨s.parent^[k] z, ⟨k, rfl⟩, hfix⟩

end DreddUF

namespace DreddUF

variable {α : Type} [DecidableEq α]

theorem sameRoot_iff_roots {p : α → α} {a b ra rb : α} (ha : RootOf p a ra)
    (hb : RootOf p b rb) : SameRoot p a b ↔ ra = rb := by
  constructor
  · rintro ⟨r, h1, h2⟩
    exact (rootOf_unique ha h1).trans (rootOf_unique hb h2).symm
  · intro h
    exact ⟨rb, h ▸ ha, hb⟩

theorem ufUnion_spec (s : UFState α) (hinv : UFInv s) (x y : α)
    (hx : x ∈ s.dom) (hy : y ∈ s.dom) :
    (ufUnion s x y).dom = s.dom
    ∧ UFInv (ufUnion s x y)
    ∧ ∀ z w, SameRoot (ufUnion s x y).parent z w ↔
        (SameRoot s.parent z w
          ∨ (SameRoot s.parent z x ∧ SameRoot s.parent y w)
          ∨ (SameRoot s.parent z y ∧ SameRoot s.parent x w)) := by
  obtain ⟨dom, p⟩ := s
  dsimp only at hx hy ⊢
  obtain ⟨hinv1, hiff1, hroot1, hr1dom⟩ := findAux_inv hinv x
  obtain ⟨hinv2, hiff2, hroot2, hr2dom⟩ := findAux_inv hinv1 y
  set p1 := (findAux dom.length p x).2 with hp1
  set r1 := (findAux dom.length p x).1 with hr1
  set p2 := (findAux dom.length p1 y).2 with hp2
  set r2 := (findAux dom.length p1 y).1 with hr2
  have hrooty : RootOf p y r2 := (hiff1 y r2).mp hroot2
  have hiff12 : ∀ z w, RootOf p2 z w ↔ RootOf p z w := fun z w =>
    (hiff2 z w).trans (hiff1 z w)
  have hr1fix2 : p2 r1 = r1 := ((hiff12 x r1).mpr hroot1).2
  have hr2fix2 : p2 r2 = r2 := ((hiff12 y r2).mpr hrooty).2
  have hufdef : ufUnion (⟨dom, p⟩ : UFState α) x y
      = if r1 = r2 then (⟨dom, p2⟩ : UFState α)
        else ⟨dom, Function.update p2 r2 r1⟩ := rfl
  by_cases hrr : r1 = r2
  · rw [hufdef, if_pos hrr]
    refine ⟨rfl, hinv2, ?_⟩
    intro z w
    dsimp only
    have hsr : SameRoot p2 z w ↔ SameRoot p z w := by
      constructor
      · rintro ⟨r, ha, hb⟩
        exact ⟨r, (hiff12 _ _).mp ha, (hiff12 _ _).mp hb⟩
      · rintro ⟨r, ha, hb⟩
        exact ⟨r, (hiff12 _ _).mpr ha, (hiff12 _ _).mpr hb⟩
    rw [hsr]
    constructor
    · exact Or.inl
    · rintro (h | ⟨⟨r, hzr, hxr⟩, ⟨r', hyr, hwr⟩⟩ | ⟨⟨r, hzr, hyr⟩, ⟨r', hxr, hwr⟩⟩)
      · exact h
      · refine ⟨r, hzr, ?_⟩
        have e1 : r = r1 := rootOf_unique hxr hroot1
        have e2 : r' = r2 := rootOf_unique hyr hrooty
        rw [e1, hrr, ← e2]
        exact hwr
      · refine ⟨r, hzr, ?_⟩
        have e1 : r = r2 := rootOf_unique hyr hrooty
        have e2 : r' = r1 := rootOf_unique hxr hroot1
        rw [e1, ← hrr, ← e2]
        exact hwr
  · rw [hufdef, if_neg hrr]
    have hb : Function.update p2 r2 r1 r1 = r1 := by
      rw [Function.update_noteq hrr]
      exact hr1fix2
    refine ⟨rfl, ⟨?_, ?_, hinv2.nodup, cyclefree_update hb hinv2.cyclefree⟩, ?_⟩
    · intro z hz
      dsimp only at hz ⊢
      by_cases hz2 : z = r2
      · rw [hz2, Function.update_same]
        exact hr1dom hx
      · rw [Function.update_noteq hz2]
        exact hinv2.closed z hz
    · intro z hz
      dsimp only at hz ⊢
      have hz2 : z ≠ r2 := fun h => hz (h ▸ hr2dom hy)
      rw [Function.update_noteq hz2]
      exact hinv2.outside z hz
    · intro z w
      dsimp only
      obtain ⟨rz, hrz⟩ := rootOf_exists hinv z
      obtain ⟨rw2, hrw⟩ := rootOf_exists hinv w
      have hchar : ∀ u ru, RootOf p u ru → ∀ v,
          RootOf (Function.update p2 r2 r1) u v
            ↔ ((ru ≠ r2 ∧ v = ru) ∨ (ru = r2 ∧ v = r1)) := by
        intro u ru hru v
        rw [rootOf_update_union hr1fix2 hr2fix2 hrr u v]
        constructor
        · rintro (⟨hv, hv2⟩ | ⟨hv2, rfl⟩)
          · have hvru : v = ru := rootOf_unique ((hiff12 u v).mp hv) hru
            exact Or.inl ⟨by rw [← hvru]; exact hv2, hvru⟩
          · exact Or.inr ⟨rootOf_unique hru ((hiff12 u r2).mp hv2), rfl⟩
        · rintro (⟨hne2, rfl⟩ | ⟨hr2eq, rfl⟩)
          · exact Or.inl ⟨(hiff12 u v).mpr hru, hne2⟩
          · exact Or.inr ⟨(hiff12 u r2).mpr (hr2eq ▸ hru), rfl⟩
      have hL : SameRoot (Function.update p2 r2 r1) z w
          ↔ (if rz = r2 then r1 else rz) = (if rw2 = r2 then r1 else rw2) := by
        constructor
        · rintro ⟨r, haz, haw⟩
          have e1 : (if rz = r2 then r1 else rz) = r := by
            rcases (hchar z rz hrz r).mp haz with ⟨hne, hv⟩ | ⟨he, hv⟩
            · rw [if_neg hne, hv]
            · rw [if_pos he, hv]
          have e2 : (if rw2 = r2 then r1 else rw2) = r := by
            rcases (hchar w rw2 hrw r).mp haw with ⟨hne, hv⟩ | ⟨he, hv⟩
            · rw [if_neg hne, hv]
            · rw [if_pos he, hv]
          rw [e1, e2]
        · intro hvv
          refine ⟨if rz = r2 then r1 else rz, ?_, ?_⟩
          · refine (hchar z rz hrz _).mpr ?_
            by_cases h : rz = r2
            · exact Or.inr ⟨h, by rw [if_pos h]⟩
            · exact Or.inl ⟨h, by rw [if_neg h]⟩
          · rw [hvv]
            refine (hchar w rw2 hrw _).mpr ?_
            by_cases h : rw2 = r2
            · exact Or.inr ⟨h, by rw [if_pos h]⟩
            · exact Or.inl ⟨h, by rw [if_neg h]⟩
      have hR1 : SameRoot p z w ↔ rz = rw2 := sameRoot_iff_roots hrz hrw
      have hR2 : SameRoot p z x ↔ rz = r1 := sameRoot_iff_roots hrz hroot1
      have hR3 : SameRoot p y w ↔ r2 = rw2 := sameRoot_iff_roots hrooty hrw
      have hR4 : SameRoot p z y ↔ rz = r2 := sameRoot_iff_roots hrz hrooty
      have hR5 : SameRoot p x w ↔ r1 = rw2 := sameRoot_iff_roots hroot1 hrw
      rw [hL, hR1, hR2, hR3, hR4, hR5]
      by_cases hz2 : rz = r2 <;> by_cases hw2 : rw2 = r2
      · rw [if_pos hz2, if_pos hw2]
        constructor
        · intro _
          exact Or.inl (hz2.trans hw2.symm)
        · intro _
          rfl
      · rw [if_pos hz2, if_neg hw2]
        constructor
        · intro h
          exact Or.inr (Or.inr ⟨hz2, h⟩)
        · rintro (h | ⟨h1, h2⟩ | ⟨h1, h2⟩)
          · exact absurd (hz2 ▸ h) (fun hh => hw2 hh.symm)
          · exact absurd h2.symm hw2
          · exact h2
      · rw [if_neg hz2, if_pos hw2]
        constructor
        · intro h
          exact Or.inr (Or.inl ⟨h, hw2.symm⟩)
        · rintro (h | ⟨h1, h2⟩ | ⟨h1, h2⟩)
          · exact absurd (h.trans hw2) hz2
          · exact h1
          · exact absurd h1 hz2
      · rw [if_neg hz2, if_neg hw2]
        constructor
        · intro h
          exact Or.inl h
        · rintro (h | ⟨h1, h2⟩ | ⟨h1, h2⟩)
          · exact h
          · exact absurd h2.symm hw2
          · exact absurd h1 hz2

end DreddUF

namespace DreddUF

variable {α : Type} [DecidableEq α]

theorem ufAdd_parent {s : UFState α} (h : ∀ z, s.parent z = z) (a : α) :
    ∀ z, (ufAdd s a).parent z = z := by
  intro z
  unfold ufAdd
  split_ifs with hc
  · exact h z
  · dsimp only
    by_cases hza : z = a
    · rw [hza, Function.update_same]
    · rw [Function.update_noteq hza]
      exact h z

theorem ufAdd_nodup {s : UFState α} (h : s.dom.Nodup) (a : α) :
    (ufAdd s a).dom.Nodup := by
  unfold ufAdd
  split_ifs with hc
  · exact h
  · dsimp only
    have hna : a ∉ s.dom := by
      intro hmem
      exact hc (List.elem_iff.mpr hmem)
    simp [List.nodup_append, h, hna]

theorem ufAdd_mem (s : UFState α) (a z : α) :
    z ∈ (ufAdd s a).dom ↔ z ∈ s.dom ∨ z = a := by
  unfold ufAdd
  split_ifs with hc
  · constructor
    · exact Or.inl
    · rintro (h | rfl)
      · exact h
      · exact List.elem_iff.mp hc
  · simp [List.mem_append]

theorem ufInit_spec (pairs : List (α × α)) :
    (∀ z, (ufInit pairs).parent z = z)
    ∧ (ufInit pairs).dom.Nodup
    ∧ (∀ z, z ∈ (ufInit pairs).dom ↔ ∃ q ∈ pairs, z = q.1 ∨ z = q.2) := by
  have main : ∀ (rest : List (α × α)) (s : UFState α),
      (∀ z, s.parent z = z) → s.dom.Nodup →
      (∀ z, (rest.foldl (fun s q => ufAdd (ufAdd s q.1) q.2) s).parent z = z)
      ∧ (rest.foldl (fun s q => ufAdd (ufAdd s q.1) q.2) s).dom.Nodup
      ∧ (∀ z, z ∈ (rest.foldl (fun s q => ufAdd (ufAdd s q.1) q.2) s).dom
          ↔ z ∈ s.dom ∨ ∃ q ∈ rest, z = q.1 ∨ z = q.2) := by
    intro rest
    induction rest with
    | nil =>
        intro s hp hn
        exact ⟨hp, hn, fun z => by simp⟩
    | cons q rest ih =>
        intro s hp hn
        have hp2 : ∀ z, (ufAdd (ufAdd s q.1) q.2).parent z = z :=
          ufAdd_parent (ufAdd_parent hp q.1) q.2
        have hn2 : (ufAdd (ufAdd s q.1) q.2).dom.Nodup :=
          ufAdd_nodup (ufAdd_nodup hn q.1) q.2
        obtain ⟨c1, c2, c3⟩ := ih (ufAdd (ufAdd s q.1) q.2) hp2 hn2
        refine ⟨c1, c2, fun z => ?_⟩
        rw [List.foldl_cons, c3 z, ufAdd_mem, ufAdd_mem]
        simp only [List.mem_cons]
        constructor
        · rintro ((( h | h) | h) | ⟨q2, hq2, hz⟩)
          · exact Or.inl h
          · exact Or.inr ⟨q, Or.inl rfl, Or.inl h⟩
          · exact Or.inr ⟨q, Or.inl rfl, Or.inr h⟩
          · exact Or.inr ⟨q2, Or.inr hq2, hz⟩
        · rintro (h | ⟨q2, hq2 | hq2, hz⟩)
          · exact Or.inl (Or.inl (Or.inl h))
          · rcases hz with hz | hz
            · exact Or.inl (Or.inl (Or.inr (by rw [hq2] at hz; exact hz)))
            · exact Or.inl (Or.inr (by rw [hq2] at hz; exact hz))
          · exact Or.inr ⟨q2, hq2, hz⟩
  have base : ∀ z, (⟨[], fun a => a⟩ : UFState α).parent z = z := fun _ => rfl
  obtain ⟨c1, c2, c3⟩ := main pairs ⟨[], fun a => a⟩ base List.nodup_nil
  exact ⟨c1, c2, fun z => by rw [ufInit, c3 z]; simp⟩

theorem ufInit_inv (pairs : List (α × α)) : UFInv (ufInit pairs) := by
  obtain ⟨hp, hn, _⟩ := ufInit_spec pairs
  refine ⟨?_, fun x _ => hp x, hn, ?_⟩
  · intro x hx
    rw [hp x]
    exact hx
  · intro z n _ _
    exact hp z

theorem iterate_of_pointwise_id {p : α → α} (hp : ∀ z, p z = z) (n : Nat)
    (z : α) : p^[n] z = z := by
  induction n with
  | zero => rfl
  | succ n ih => rw [Function.iterate_succ_apply', ih, hp]

theorem sameRoot_of_pointwise_id {p : α → α} (hp : ∀ z, p z = z) (z w : α) :
    SameRoot p z w ↔ z = w := by
  constructor
  · rintro ⟨r, ⟨⟨n, hn⟩, _⟩, ⟨⟨m, hm⟩, _⟩⟩
    rw [iterate_of_pointwise_id hp] at hn hm
    rw [hn, hm]
  · rintro rfl
    exact ⟨z, ⟨reaches_refl p z, hp z⟩, ⟨reaches_refl p z, hp z⟩⟩

end DreddUF

namespace DreddUF

variable {α : Type} [DecidableEq α]

/-- Connectivity in the undirected graph whose edges are the pair list:
the reflexive symmetric transitive closure of the pair relation. -/
inductive Conn (ps : List (α × α)) : α → α → Prop where
  | refl (x : α) : Conn ps x x
  | symm {x y : α} : Conn ps x y → Conn ps y x
  | trans {x y z : α} : Conn ps x y → Conn ps y z → Conn ps x z
  | pair {x y : α} : (x, y) ∈ ps → Conn ps x y

theorem conn_nil {z w : α} (h : Conn ([] : List (α × α)) z w) : z = w := by
  induction h with
  | refl x => rfl
  | symm _ ih => exact ih.symm
  | trans _ _ ih1 ih2 => exact ih1.trans ih2
  | pair hmem => exact absurd hmem (List.not_mem_nil _)

theorem conn_mono {ps ps2 : List (α × α)} (hsub : ∀ q ∈ ps, q ∈ ps2)
    {z w : α} (h : Conn ps z w) : Conn ps2 z w := by
  induction h with
  | refl x => exact Conn.refl x
  | symm _ ih => exact Conn.symm ih
  | trans _ _ ih1 ih2 => exact Conn.trans ih1 ih2
  | pair hmem => exact Conn.pair (hsub _ hmem)

theorem conn_perm {ps ps2 : List (α × α)} (hperm : ps.Perm ps2) (z w : α) :
    Conn ps z w ↔ Conn ps2 z w :=
  ⟨conn_mono fun q hq => hperm.mem_iff.mp hq,
   conn_mono fun q hq => hperm.mem_iff.mpr hq⟩

theorem conn_vertex {ps : List (α × α)} {z w : α} (h : Conn ps z w) :
    z = w ∨ ((∃ q ∈ ps, z = q.1 ∨ z = q.2) ∧ (∃ q ∈ ps, w = q.1 ∨ w = q.2)) := by
  induction h with
  | refl x => exact Or.inl rfl
  | symm _ ih =>
      rcases ih with h | ⟨h1, h2⟩
      · exact Or.inl h.symm
      · exact Or.inr ⟨h2, h1⟩
  | trans _ _ ih1 ih2 =>
      rcases ih1 with h1 | ⟨ha, hb⟩
      · rw [h1]
        exact ih2
      · rcases ih2 with h2 | ⟨hc, hd⟩
        · rw [← h2]
          exact Or.inr ⟨ha, hb⟩
        · exact Or.inr ⟨ha, hd⟩
  | pair hmem =>
      rename_i x y
      exact Or.inr ⟨⟨(x, y), hmem, Or.inl rfl⟩, ⟨(x, y), hmem, Or.inr rfl⟩⟩

theorem conn_append_single {ps : List (α × α)} {x y : α} (z w : α) :
    Conn (ps ++ [(x, y)]) z w
      ↔ Conn ps z w
        ∨ (Conn ps z x ∧ Conn ps y w)
        ∨ (Conn ps z y ∧ Conn ps x w) := by
  constructor
  · intro h
    induction h with
    | refl a => exact Or.inl (Conn.refl a)
    | symm _ ih =>
        rcases ih with h | ⟨h1, h2⟩ | ⟨h1, h2⟩
        · exact Or.inl (Conn.symm h)
        · exact Or.inr (Or.inr ⟨Conn.symm h2, Conn.symm h1⟩)
        · exact Or.inr (Or.inl ⟨Conn.symm h2, Conn.symm h1⟩)
    | trans _ _ ih1 ih2 =>
        rcases ih1 with h1 | ⟨h1, h2⟩ | ⟨h1, h2⟩ <;>
          rcases ih2 with h3 | ⟨h3, h4⟩ | ⟨h3, h4⟩
        · exact Or.inl (Conn.trans h1 h3)
        · exact Or.inr (Or.inl ⟨Conn.trans h1 h3, h4⟩)
        · exact Or.inr (Or.inr ⟨Conn.trans h1 h3, h4⟩)
        · exact Or.inr (Or.inl ⟨h1, Conn.trans h2 h3⟩)
        · exact Or.inr (Or.inl ⟨h1, h4⟩)
        · exact Or.inl (Conn.trans h1 h4)
        · exact Or.inr (Or.inr ⟨h1, Conn.trans h2 h3⟩)
        · exact Or.inl (Conn.trans h1 h4)
        · exact Or.inr (Or.inr ⟨h1, h4⟩)
    | pair hmem =>
        rename_i a b
        rcases List.mem_append.mp hmem with h | h
        · exact Or.inl (Conn.pair h)
        · have : (a, b) = (x, y) := List.mem_singleton.mp h
          have ha : a = x := congrArg Prod.fst this
          have hb : b = y := congrArg Prod.snd this
          subst ha
          subst hb
          exact Or.inr (Or.inl ⟨Conn.refl a, Conn.refl b⟩)
  · have hsub : ∀ q ∈ ps, q ∈ ps ++ [(x, y)] := fun q hq =>
      List.mem_append.mpr (Or.inl hq)
    have hxy : Conn (ps ++ [(x, y)]) x y :=
      Conn.pair (List.mem_append.mpr (Or.inr (List.mem_singleton_self _)))
    rintro (h | ⟨h1, h2⟩ | ⟨h1, h2⟩)
    · exact conn_mono hsub h
    · exact Conn.trans (conn_mono hsub h1)
        (Conn.trans hxy (conn_mono hsub h2))
    · exact Conn.trans (conn_mono hsub h1)
        (Conn.trans (Conn.symm hxy) (conn_mono hsub h2))

end DreddUF

namespace DreddUF

variable {α : Type} [DecidableEq α]

theorem union_fold_spec :
    ∀ (rest done : List (α × α)) (s : UFState α), UFInv s →
      (∀ q ∈ rest, q.1 ∈ s.dom ∧ q.2 ∈ s.dom) →
      (∀ z w, SameRoot s.parent z w ↔ Conn done z w) →
      UFInv (rest.foldl (fun t q => ufUnion t q.1 q.2) s)
      ∧ (rest.foldl (fun t q => ufUnion t q.1 q.2) s).dom = s.dom
      ∧ (∀ z w, SameRoot (rest.foldl (fun t q => ufUnion t q.1 q.2) s).parent z w
          ↔ Conn (done ++ rest) z w) := by
  intro rest
  induction rest with
  | nil =>
      intro done s hinv _ hsr
      exact ⟨hinv, rfl, by simpa using hsr⟩
  | cons q rest ih =>
      intro done s hinv hmem hsr
      obtain ⟨hdom, hinv2, hsr2⟩ :=
        ufUnion_spec s hinv q.1 q.2 (hmem q (List.mem_cons_self _ _)).1
          (hmem q (List.mem_cons_self _ _)).2
      have hsr3 : ∀ z w, SameRoot (ufUnion s q.1 q.2).parent z w
          ↔ Conn (done ++ [q]) z w := by
        intro z w
        rw [hsr2 z w, hsr z w, hsr z q.1, hsr q.2 w, hsr z q.2, hsr q.1 w]
        exact (conn_append_single z w).symm
      have hmem2 : ∀ p2 ∈ rest, p2.1 ∈ (ufUnion s q.1 q.2).dom
          ∧ p2.2 ∈ (ufUnion s q.1 q.2).dom := by
        intro p2 hp2
        rw [hdom]
        exact hmem p2 (List.mem_cons_of_mem _ hp2)
      obtain ⟨c1, c2, c3⟩ := ih (done ++ [q]) (ufUnion s q.1 q.2) hinv2 hmem2 hsr3
      refine ⟨c1, by rw [List.foldl_cons, c2, hdom], fun z w => ?_⟩
      rw [List.foldl_cons, c3 z w]
      have : done ++ [q] ++ rest = done ++ q :: rest := by simp
      rw [this]

theorem ufProcess_spec (pairs : List (α × α)) :
    UFInv (ufProcess pairs)
    ∧ (∀ z, z ∈ (ufProcess pairs).dom ↔ ∃ q ∈ pairs, z = q.1 ∨ z = q.2)
    ∧ (∀ z w, SameRoot (ufProcess pairs).parent z w ↔ Conn pairs z w) := by
  obtain ⟨hid, hnodup, hmem⟩ := ufInit_spec pairs
  have hinv := ufInit_inv pairs
  have hsr0 : ∀ z w, SameRoot (ufInit pairs).parent z w
      ↔ Conn ([] : List (α × α)) z w := by
    intro z w
    rw [sameRoot_of_pointwise_id hid]
    exact ⟨fun h => h ▸ Conn.refl z, fun h => conn_nil h⟩
  have hmem0 : ∀ q ∈ pairs, q.1 ∈ (ufInit pairs).dom ∧ q.2 ∈ (ufInit pairs).dom := by
    intro q hq
    exact ⟨(hmem q.1).mpr ⟨q, hq, Or.inl rfl⟩, (hmem q.2).mpr ⟨q, hq, Or.inr rfl⟩⟩
  obtain ⟨c1, c2, c3⟩ := union_fold_spec pairs [] (ufInit pairs) hinv hmem0 hsr0
  refine ⟨c1, fun z => ?_, fun z w => by rw [ufProcess, c3 z w]; simp⟩
  rw [ufProcess, c2]
  exact hmem z

end DreddUF

namespace DreddUF

variable {α : Type} [DecidableEq α]

theorem addToGroups_keys (groups : List (α × List α)) (root id : α) :
    (addToGroups groups root id).map Prod.fst
      = if root ∈ groups.map Prod.fst then groups.map Prod.fst
        else groups.map Prod.fst ++ [root] := by
  induction groups with
  | nil => simp [addToGroups]
  | cons g rest ih =>
      unfold addToGroups
      by_cases hg : g.1 = root
      · rw [if_pos hg]
        have hmem : root ∈ (g :: rest).map Prod.fst := by
          simp only [List.map_cons, List.mem_cons]
          exact Or.inl hg.symm
        rw [if_pos hmem]
        simp
      · rw [if_neg hg]
        have hkeys : (g :: addToGroups rest root id).map Prod.fst
            = g.1 :: (addToGroups rest root id).map Prod.fst := rfl
        rw [hkeys, ih]
        by_cases hr : root ∈ rest.map Prod.fst
        · have hmem : root ∈ (g :: rest).map Prod.fst := by
            simp only [List.map_cons, List.mem_cons]
            exact Or.inr hr
          rw [if_pos hr, if_pos hmem]
          rfl
        · have hnmem : root ∉ (g :: rest).map Prod.fst := by
            simp only [List.map_cons, List.mem_cons]
            rintro (h | h)
            · exact hg h.symm
            · exact hr h
          rw [if_neg hr, if_neg hnmem]
          rfl

theorem addToGroups_mem_entry (groups : List (α × List α)) (root id : α) :
    ∀ g2 ∈ addToGroups groups root id, ∀ z ∈ g2.2,
      (∃ g ∈ groups, g.1 = g2.1 ∧ z ∈ g.2) ∨ (z = id ∧ g2.1 = root) := by
  induction groups with
  | nil =>
      intro g2 hg2 z hz
      rw [List.mem_singleton.mp hg2] at hz ⊢
      exact Or.inr ⟨List.mem_singleton.mp hz, rfl⟩
  | cons g rest ih =>
      intro g2 hg2 z hz
      unfold addToGroups at hg2
      by_cases hg : g.1 = root
      · rw [if_pos hg] at hg2
        rcases List.mem_cons.mp hg2 with rfl | hmem
        · rcases List.mem_append.mp hz with h | h
          · exact Or.inl ⟨g, List.mem_cons_self _ _, rfl, h⟩
          · exact Or.inr ⟨List.mem_singleton.mp h, hg⟩
        · exact Or.inl ⟨g2, List.mem_cons_of_mem _ hmem, rfl, hz⟩
      · rw [if_neg hg] at hg2
        rcases List.mem_cons.mp hg2 with rfl | hmem
        · exact Or.inl ⟨g2, List.mem_cons_self _ _, rfl, hz⟩
        · rcases ih g2 hmem z hz with ⟨g3, hg3, hkey, hzmem⟩ | h
          · exact Or.inl ⟨g3, List.mem_cons_of_mem _ hg3, hkey, hzmem⟩
          · exact Or.inr h

theorem addToGroups_persist (groups : List (α × List α)) (root id : α) :
    ∀ g ∈ groups, ∀ z ∈ g.2,
      ∃ g2 ∈ addToGroups groups root id, g2.1 = g.1 ∧ z ∈ g2.2 := by
  induction groups with
  | nil =>
      intro g hg
      exact absurd hg (List.not_mem_nil g)
  | cons g0 rest ih =>
      intro g hg z hz
      unfold addToGroups
      by_cases hg0 : g0.1 = root
      · rw [if_pos hg0]
        rcases List.mem_cons.mp hg with rfl | hmem
        · exact ⟨(g.1, g.2 ++ [id]), List.mem_cons_self _ _, rfl,
            List.mem_append.mpr (Or.inl hz)⟩
        · exact ⟨g, List.mem_cons_of_mem _ hmem, rfl, hz⟩
      · rw [if_neg hg0]
        rcases List.mem_cons.mp hg with rfl | hmem
        · exact ⟨g, List.mem_cons_self _ _, rfl, hz⟩
        · obtain ⟨g2, hg2, hkey, hzmem⟩ := ih g hmem z hz
          exact ⟨g2, List.mem_cons_of_mem _ hg2, hkey, hzmem⟩

theorem addToGroups_new (groups : List (α × List α)) (root id : α) :
    ∃ g2 ∈ addToGroups groups root id, g2.1 = root ∧ id ∈ g2.2 := by
  induction groups with
  | nil =>
      exact ⟨(root, [id]), List.mem_singleton_self _, rfl,
        List.mem_singleton_self _⟩
  | cons g rest ih =>
      unfold addToGroups
      by_cases hg : g.1 = root
      · rw [if_pos hg]
        exact ⟨(g.1, g.2 ++ [id]), List.mem_cons_self _ _, hg,
          List.mem_append.mpr (Or.inr (List.mem_singleton_self _))⟩
      · rw [if_neg hg]
        obtain ⟨g2, hg2, hkey, hid⟩ := ih
        exact ⟨g2, List.mem_cons_of_mem _ hg2, hkey, hid⟩

theorem addToGroups_members_nodup (groups : List (α × List α)) (root id : α)
    (hn : ∀ g ∈ groups, g.2.Nodup) (hid : ∀ g ∈ groups, id ∉ g.2) :
    ∀ g2 ∈ addToGroups groups root id, g2.2.Nodup := by
  induction groups with
  | nil =>
      intro g2 hg2
      rw [List.mem_singleton.mp hg2]
      exact List.nodup_singleton id
  | cons g rest ih =>
      intro g2 hg2
      unfold addToGroups at hg2
      by_cases hg : g.1 = root
      · rw [if_pos hg] at hg2
        rcases List.mem_cons.mp hg2 with rfl | hmem
        · simp only [List.nodup_append, List.nodup_singleton]
          refine ⟨hn g (List.mem_cons_self _ _), by simp, ?_⟩
          intro a ha hb
          rw [List.mem_singleton.mp hb] at ha
          exact hid g (List.mem_cons_self _ _) ha
        · exact hn g2 (List.mem_cons_of_mem _ hmem)
      · rw [if_neg hg] at hg2
        rcases List.mem_cons.mp hg2 with rfl | hmem
        · exact hn g2 (List.mem_cons_self _ _)
        · exact ih (fun g3 hg3 => hn g3 (List.mem_cons_of_mem _ hg3))
            (fun g3 hg3 => hid g3 (List.mem_cons_of_mem _ hg3)) g2 hmem

end DreddUF

namespace DreddUF

variable {α : Type} [DecidableEq α]

theorem groupPhase_nil (fuel : Nat) (p : α → α) (groups : List (α × List α)) :
    groupPhase fuel [] p groups = groups := rfl

theorem groupPhase_cons (fuel : Nat) (x : α) (rest : List α) (p : α → α)
    (groups : List (α × List α)) :
    groupPhase fuel (x :: rest) p groups
      = groupPhase fuel rest (findAux fuel p x).2
          (addToGroups groups (findAux fuel p x).1 x) := rfl

/-- The grouping loop of clusterPairs, verified: after folding the ids of
the processed store into groups, every group member lies in the domain with
the group key as its root, every domain element appears in some group, the
group keys are distinct, and each member list is duplicate-free. -/
theorem groupPhase_spec {tdom : List α} {tparent : α → α}
    (hinvt : UFInv (⟨tdom, tparent⟩ : UFState α)) :
    ∀ (ids : List α) (p : α → α) (groups : List (α × List α)) (done : List α),
      UFInv (⟨tdom, p⟩ : UFState α) →
      (∀ z w, RootOf p z w ↔ RootOf tparent z w) →
      done ++ ids = tdom →
      (∀ g ∈ groups, ∀ z ∈ g.2, z ∈ done ∧ RootOf tparent z g.1) →
      (∀ z ∈ done, ∃ g ∈ groups, z ∈ g.2) →
      ((groups.map Prod.fst).Nodup) →
      (∀ g ∈ groups, g.2.Nodup) →
      (∀ g2 ∈ groupPhase tdom.length ids p groups, ∀ z ∈ g2.2,
          z ∈ tdom ∧ RootOf tparent z g2.1)
      ∧ (∀ z ∈ tdom, ∃ g ∈ groupPhase tdom.length ids p groups, z ∈ g.2)
      ∧ ((groupPhase tdom.length ids p groups).map Prod.fst).Nodup
      ∧ (∀ g ∈ groupPhase tdom.length ids p groups, g.2.Nodup) := by
  intro ids
  induction ids with
  | nil =>
      intro p groups done hinvp hiff hsplit hc hd he hf
      rw [List.append_nil] at hsplit
      subst hsplit
      rw [groupPhase_nil]
      exact ⟨fun g hg z hz => hc g hg z hz, hd, he, hf⟩
  | cons x ids ih =>
      intro p groups done hinvp hiff hsplit hc hd he hf
      obtain ⟨hinv2, hiff2, hrootp, hrdom⟩ := findAux_inv hinvp x
      have hroott : RootOf tparent x (findAux tdom.length p x).1 :=
        (hiff x _).mp hrootp
      have hiff3 : ∀ z w, RootOf (findAux tdom.length p x).2 z w
          ↔ RootOf tparent z w :=
        fun z w => (hiff2 z w).trans (hiff z w)
      have hxdone : x ∉ done := by
        have hnd : (done ++ x :: ids).Nodup := by
          rw [hsplit]
          exact hinvt.nodup
        intro hxd
        rcases List.nodup_append.mp hnd with ⟨_, _, hdisj⟩
        exact hdisj hxd (List.mem_cons_self _ _)
      have hsplit2 : (done ++ [x]) ++ ids = tdom := by
        rw [List.append_assoc]
        exact hsplit
      have hc2 : ∀ g2 ∈ addToGroups groups (findAux tdom.length p x).1 x,
          ∀ z ∈ g2.2, z ∈ done ++ [x] ∧ RootOf tparent z g2.1 := by
        intro g2 hg2 z hz
        rcases addToGroups_mem_entry groups _ x g2 hg2 z hz with
          ⟨g, hg, hkey, hzg⟩ | ⟨hzx, hkey⟩
        · obtain ⟨hzdone, hzroot⟩ := hc g hg z hzg
          exact ⟨List.mem_append.mpr (Or.inl hzdone), hkey ▸ hzroot⟩
        · refine ⟨List.mem_append.mpr (Or.inr ?_), ?_⟩
          · rw [hzx]
            exact List.mem_singleton_self x
          · rw [hzx, hkey]
            exact hroott
      have hd2 : ∀ z ∈ done ++ [x],
          ∃ g ∈ addToGroups groups (findAux tdom.length p x).1 x, z ∈ g.2 := by
        intro z hz
        rcases List.mem_append.mp hz with h | h
        · obtain ⟨g, hg, hzg⟩ := hd z h
          obtain ⟨g2, hg2, _, hzg2⟩ := addToGroups_persist groups _ x g hg z hzg
          exact ⟨g2, hg2, hzg2⟩
        · obtain ⟨g2, hg2, _, hxg2⟩ := addToGroups_new groups _ x
          rw [List.mem_singleton.mp h]
          exact ⟨g2, hg2, hxg2⟩
      have he2 : ((addToGroups groups (findAux tdom.length p x).1 x).map
          Prod.fst).Nodup := by
        rw [addToGroups_keys]
        by_cases hrk : (findAux tdom.length p x).1 ∈ groups.map Prod.fst
        · rw [if_pos hrk]
          exact he
        · rw [if_neg hrk]
          refine List.Nodup.append he (List.nodup_singleton _) ?_
          intro a ha hb
          rw [List.mem_singleton.mp hb] at ha
          exact hrk ha
      have hf2 : ∀ g ∈ addToGroups groups (findAux tdom.length p x).1 x,
          g.2.Nodup := by
        refine addToGroups_members_nodup groups _ x hf ?_
        intro g hg hxg
        exact hxdone (hc g hg x hxg).1
      rw [groupPhase_cons]
      exact ih (findAux tdom.length p x).2
        (addToGroups groups (findAux tdom.length p x).1 x) (done ++ [x])
        hinv2 hiff3 hsplit2 hc2 hd2 he2 hf2

end DreddUF

namespace DreddUF

variable {α : Type} [DecidableEq α]

theorem one_lt_length_of_two_mem {l : List α} {a b : α} (ha : a ∈ l)
    (hb : b ∈ l) (hne : a ≠ b) : 1 < l.length := by
  rcases l with _ | ⟨x, _ | ⟨y, t⟩⟩
  · exact absurd ha (List.not_mem_nil a)
  · exact absurd ((List.mem_singleton.mp ha).trans
      (List.mem_singleton.mp hb).symm) hne
  · simp only [List.length_cons]
    omega

/-- clusterPairs is exactly the set of connected components of size at
least two: every returned cluster is duplicate-free, has more than one
member, and consists, for any of its members, of exactly the ids connected
to that member; and any two distinct connected ids share a cluster. -/
theorem clusterPairs_spec (pairs : List (α × α)) :
    (∀ c ∈ clusterPairs pairs, 1 < c.length ∧ c.Nodup
      ∧ ∀ z ∈ c, ∀ w, w ∈ c ↔ Conn pairs z w)
    ∧ (∀ z w, Conn pairs z w → z ≠ w →
        ∃ c ∈ clusterPairs pairs, z ∈ c ∧ w ∈ c) := by
  by_cases hnil : pairs = []
  · subst hnil
    constructor
    · intro c hc
      rw [clusterPairs, if_pos rfl] at hc
      exact absurd hc (List.not_mem_nil c)
    · intro z w hconn hne
      exact absurd (conn_nil hconn) hne
  · obtain ⟨hinvt, hdomiff, hsr⟩ := ufProcess_spec pairs
    obtain ⟨hA, hB, hC, hD⟩ := groupPhase_spec hinvt (ufProcess pairs).dom
      (ufProcess pairs).parent [] [] hinvt (fun z w => Iff.rfl) rfl
      (fun g hg => absurd hg (List.not_mem_nil g))
      (fun z hz => absurd hz (List.not_mem_nil z))
      (by simp)
      (fun g hg => absurd hg (List.not_mem_nil g))
    have hcp : clusterPairs pairs
        = ((groupPhase (ufProcess pairs).dom.length (ufProcess pairs).dom
            (ufProcess pairs).parent []).map Prod.snd).filter
            fun c => decide (1 < c.length) := by
      rw [clusterPairs, if_neg hnil]
    constructor
    · intro c hc
      rw [hcp] at hc
      obtain ⟨hcmem, hclen⟩ := List.mem_filter.mp hc
      have hlen : 1 < c.length := of_decide_eq_true hclen
      obtain ⟨g, hg, hgc⟩ := List.mem_map.mp hcmem
      refine ⟨hlen, ?_, ?_⟩
      · rw [← hgc]
        exact hD g hg
      · intro z hz w
        rw [← hgc] at hz ⊢
        obtain ⟨hztdom, hzroot⟩ := hA g hg z hz
        constructor
        · intro hw
          obtain ⟨hwtdom, hwroot⟩ := hA g hg w hw
          exact (hsr z w).mp ⟨g.1, hzroot, hwroot⟩
        · intro hconn
          obtain ⟨r, hr1, hr2⟩ := (hsr z w).mpr hconn
          have hwroot : RootOf (ufProcess pairs).parent w g.1 :=
            (rootOf_unique hr1 hzroot) ▸ hr2
          by_cases hwz : w = z
          · rw [hwz]
            exact hz
          · have hwvert : ∃ q ∈ pairs, w = q.1 ∨ w = q.2 := by
              rcases conn_vertex hconn with h | ⟨_, h2⟩
              · exact absurd h.symm hwz
              · exact h2
            obtain ⟨g2, hg2, hwg2⟩ := hB w ((hdomiff w).mpr hwvert)
            obtain ⟨_, hwroot2⟩ := hA g2 hg2 w hwg2
            have hgg : g2 = g := List.inj_on_of_nodup_map hC hg2 hg
              (rootOf_unique hwroot2 hwroot)
            rw [← hgg]
            exact hwg2
    · intro z w hconn hne
      have hzvert : ∃ q ∈ pairs, z = q.1 ∨ z = q.2 := by
        rcases conn_vertex hconn with h | ⟨h1, _⟩
        · exact absurd h hne
        · exact h1
      have hwvert : ∃ q ∈ pairs, w = q.1 ∨ w = q.2 := by
        rcases conn_vertex hconn with h | ⟨_, h2⟩
        · exact absurd h hne
        · exact h2
      obtain ⟨g, hg, hzg⟩ := hB z ((hdomiff z).mpr hzvert)
      obtain ⟨g2, hg2, hwg2⟩ := hB w ((hdomiff w).mpr hwvert)
      obtain ⟨_, hzroot⟩ := hA g hg z hzg
      obtain ⟨_, hwroot⟩ := hA g2 hg2 w hwg2
      obtain ⟨r, hr1, hr2⟩ := (hsr z w).mpr hconn
      have hkeys : g.1 = g2.1 :=
        (rootOf_unique hr1 hzroot).symm.trans (rootOf_unique hr2 hwroot)
      have hgg : g = g2 := List.inj_on_of_nodup_map hC hg hg2 hkeys
      have hwg : w ∈ g.2 := by
        rw [hgg]
        exact hwg2
      refine ⟨g.2, ?_, hzg, hwg⟩
      rw [hcp]
      exact List.mem_filter.mpr ⟨List.mem_map.mpr ⟨g, hg, rfl⟩,
        decide_eq_true (one_lt_length_of_two_mem hzg hwg hne)⟩

end DreddUF

/-- Claim C7: union-find clustering of duplicate pairs returns exactly the
connected components of size at least 2 of the undirected graph formed by
the pairs — every returned cluster has more than one member, is
duplicate-free, and contains precisely the ids connected to any of its
members, and any two distinct connected ids share a cluster; clustering is
order-independent — any permutation of the pair list yields the same
clusters as sets of ids; and the pairs (A,B), (B,C), (D,E) yield exactly
two clusters, one with members A, B, C and one with members D, E. -/
theorem C7_union_find_connected_components {α : Type} [DecidableEq α]
    (pairs pairs2 : List (α × α)) (hperm : pairs.Perm pairs2) :
    (∀ c ∈ DreddUF.clusterPairs pairs, 1 < c.length ∧ c.Nodup
      ∧ ∀ z ∈ c, ∀ w, w ∈ c ↔ DreddUF.Conn pairs z w)
    ∧ (∀ z w, DreddUF.Conn pairs z w → z ≠ w →
        ∃ c ∈ DreddUF.clusterPairs pairs, z ∈ c ∧ w ∈ c)
    ∧ (∀ S : Set α,
        (∃ c ∈ DreddUF.clusterPairs pairs, ∀ x, x ∈ c ↔ x ∈ S)
          ↔ ∃ c ∈ DreddUF.clusterPairs pairs2, ∀ x, x ∈ c ↔ x ∈ S)
    ∧ (DreddUF.clusterPairs [("A", "B"), ("B", "C"), ("D", "E")]).length = 2
    ∧ (∃ c ∈ DreddUF.clusterPairs [("A", "B"), ("B", "C"), ("D", "E")],
        c.Perm ["A", "B", "C"])
    ∧ (∃ c ∈ DreddUF.clusterPairs [("A", "B"), ("B", "C"), ("D", "E")],
        c.Perm ["D", "E"]) := by
  obtain ⟨hspec1, hspec2⟩ := DreddUF.clusterPairs_spec pairs
  have hdir : ∀ (ps qs : List (α × α)), ps.Perm qs →
      ∀ S : Set α, (∃ c ∈ DreddUF.clusterPairs ps, ∀ x, x ∈ c ↔ x ∈ S) →
        ∃ c ∈ DreddUF.clusterPairs qs, ∀ x, x ∈ c ↔ x ∈ S := by
    rintro ps qs hpq S ⟨c1, hc1, hS⟩
    obtain ⟨hlen, hnd, hchar⟩ := (DreddUF.clusterPairs_spec ps).1 c1 hc1
    rcases c1 with _ | ⟨a, _ | ⟨b, t⟩⟩
    · simp only [List.length_nil] at hlen
      omega
    · simp only [List.length_cons, List.length_nil] at hlen
      omega
    · have ha1 : a ∈ a :: b :: t := List.mem_cons_self _ _
      have hb1 : b ∈ a :: b :: t :=
        List.mem_cons_of_mem _ (List.mem_cons_self _ _)
      have hab : a ≠ b := by
        intro h
        exact (List.nodup_cons.mp hnd).1
          (by rw [h]; exact List.mem_cons_self b t)
      have hconn : DreddUF.Conn ps a b := (hchar a ha1 b).mp hb1
      have hconn2 : DreddUF.Conn qs a b :=
        (DreddUF.conn_perm hpq a b).mp hconn
      obtain ⟨c2, hc2, ha2, hb2⟩ :=
        (DreddUF.clusterPairs_spec qs).2 a b hconn2 hab
      obtain ⟨_, _, hchar2⟩ := (DreddUF.clusterPairs_spec qs).1 c2 hc2
      refine ⟨c2, hc2, fun x => ?_⟩
      rw [hchar2 a ha2 x, ← DreddUF.conn_perm hpq a x, ← hchar a ha1 x]
      exact hS x
  refine ⟨hspec1, hspec2,
    fun S => ⟨hdir pairs pairs2 hperm S, hdir pairs2 pairs hperm.symm S⟩,
    ?_, ?_, ?_⟩
  · decide
  · decide
  · decide

/-- The C7 theorem applied to the concrete pair list (A,B), (B,C), (D,E)
and one of its permutations. -/
theorem C7_union_find_connected_components_witness :
    (DreddUF.clusterPairs [("A", "B"), ("B", "C"), ("D", "E")]).length = 2 :=
  (C7_union_find_connected_components
    [("A", "B"), ("B", "C"), ("D", "E")]
    [("B", "C"), ("A", "B"), ("D", "E")] (by decide)).2.2.2.1
